import Mathlib

/-!
Verification of the optiway itinerary-optimization engine.

The definitions below are shallow embeddings of the Python sources:
  * src/app/services/solver_service.py (MILP app solver),
  * src/solver_service/models/solver.py (NSGA-II solver),
  * src/optimization/solver.py (prototype MILP solver),
  * src/app/services/geo_service.py and src/app/api/endpoints/flights.py
    (infeasibility advisor).
Python floats are modelled as exact rationals, machine ints as ℤ/ℕ, and
fallible operations (Python list/numpy indexing, exceptions) as Except.
-/

namespace Spec2Proof

/-- A priced travel offer between two cities: the fields of
`app.schemas.travel.Flight` that the solvers read. -/
structure Flight where
  origin : String
  destination : String
  price : ℚ
  duration_minutes : ℤ
deriving DecidableEq

/-- A hotel record: the fields of `app.schemas.travel.Hotel` read by the
solvers. -/
structure Hotel where
  city : String
  price_per_night : ℚ
deriving DecidableEq

/-- The fields of `TravelRequest` that the solvers read. -/
structure TravelRequest where
  origin_cities : List String
  destination_cities : List String
  mandatory_cities : List String
  pax_adults : ℤ
  pax_children : ℤ
  is_round_trip : Bool
  weight_cost : ℚ
  weight_time : ℚ
  stay_days_per_city : ℤ
  daily_cost_per_person : ℚ
deriving DecidableEq

/-- `city_map = {city: i for i, city in enumerate(all_cities)}` followed by a
lookup: the index of a city in the consolidated city list. -/
def cityMapOf (cities : List String) (c : String) : Option ℕ :=
  cities.findIdx? (fun d => d == c)

/-- `total_pax = request.pax_adults + request.pax_children; if total_pax < 1:
total_pax = 1` (solver_service.py lines 32-33, solver.py lines 104-106 and
405-407). -/
def clampPax (t : ℤ) : ℤ :=
  if t < 1 then 1 else t

/-- The clamped passenger count of a request. -/
def totalPaxOf (req : TravelRequest) : ℤ :=
  clampPax (req.pax_adults + req.pax_children)

/-! ### GraphBuilder of the app MILP solver
(src/app/services/solver_service.py lines 39-55) -/

/-- `current_score = (request.weight_cost * f.price * total_pax) +
(request.weight_time * f.duration_minutes)` (solver_service.py line 49). -/
def scoreOfApp (wc wt : ℚ) (pax : ℤ) (f : Flight) : ℚ :=
  wc * f.price * (pax : ℚ) + wt * (f.duration_minutes : ℚ)

/-- The data retained per ordered city pair by the matrix-building loop:
score, `cost_matrix` entry, `time_matrix` entry and `flight_data` entry. -/
structure BestCell where
  score : ℚ
  price : ℚ
  duration : ℤ
  flight : Flight
deriving DecidableEq

/-- The cell the loop writes when flight `f` wins the comparison. -/
def mkCell (wc wt : ℚ) (pax : ℤ) (f : Flight) : BestCell :=
  ⟨scoreOfApp wc wt pax f, f.price, f.duration_minutes, f⟩

/-- The body of one iteration of the matrix-building loop, after the
`f.origin in city_map and f.destination in city_map` lookups. -/
def stepBestCore (wc wt : ℚ) (pax : ℤ) (acc : ℕ × ℕ → Option BestCell)
    (f : Flight) : Option ℕ → Option ℕ → (ℕ × ℕ → Option BestCell)
  | some i, some j =>
      let s := scoreOfApp wc wt pax f
      let better : Bool :=
        match acc (i, j) with
        | none => true
        | some c => decide (s < c.score)
      if better then
        fun p => if p = (i, j) then some (mkCell wc wt pax f) else acc p
      else acc
  | _, _ => acc

/-- One iteration of the matrix-building loop of solver_service.py lines
42-55: if both endpoints are known cities and the score of `f` is strictly
below the best score seen so far for (i, j), overwrite the cell. -/
def stepBest (wc wt : ℚ) (pax : ℤ) (cm : String → Option ℕ)
    (acc : ℕ × ℕ → Option BestCell) (f : Flight) : ℕ × ℕ → Option BestCell :=
  stepBestCore wc wt pax acc f (cm f.origin) (cm f.destination)

/-- The matrix-building step of `solve_itinerary` (solver_service.py lines
39-55): fold the per-flight update over the offer list, starting from
score `inf` everywhere (modelled as an empty cell). -/
def buildScoreMatrix (wc wt : ℚ) (pax : ℤ) (cm : String → Option ℕ)
    (flights : List Flight) : ℕ × ℕ → Option BestCell :=
  flights.foldl (stepBest wc wt pax cm) (fun _ => none)

/-- Flight `f` competes for the ordered pair (i, j). -/
def Competes (cm : String → Option ℕ) (i j : ℕ) (f : Flight) : Prop :=
  cm f.origin = some i ∧ cm f.destination = some j

instance (cm : String → Option ℕ) (i j : ℕ) (f : Flight) :
    Decidable (Competes cm i j f) := by
  unfold Competes; infer_instance

/-- Score `s` beats the best cell seen so far (an empty cell scores `inf`). -/
def BeatsCell (s : ℚ) : Option BestCell → Prop
  | none => True
  | some c => s < c.score

instance (s : ℚ) (r : Option BestCell) : Decidable (BeatsCell s r) := by
  cases r
  · exact isTrue trivial
  · unfold BeatsCell; infer_instance

theorem stepBestCore_at (wc wt : ℚ) (pax : ℤ)
    (acc : ℕ × ℕ → Option BestCell) (f : Flight) (o d : Option ℕ) (i j : ℕ) :
    stepBestCore wc wt pax acc f o d (i, j) =
      if (o = some i ∧ d = some j) ∧
          BeatsCell (scoreOfApp wc wt pax f) (acc (i, j)) then
        some (mkCell wc wt pax f)
      else acc (i, j) := by
  rcases o with _ | i' <;> rcases d with _ | j' <;>
    simp only [stepBestCore]
  · simp
  · simp
  · simp
  · by_cases hij : i' = i ∧ j' = j
    · obtain ⟨rfl, rfl⟩ := hij
      rcases ha : acc (i', j') with _ | c
      · simp [ha, BeatsCell]
      · simp only [ha]
        by_cases hlt : scoreOfApp wc wt pax f < c.score
        · simp [hlt, ha, BeatsCell]
        · simp [hlt, ha, BeatsCell]
    · have hne : ¬ ((i, j) = (i', j')) := by
        intro h
        have hp := Prod.ext_iff.mp h
        exact hij ⟨hp.1.symm, hp.2.symm⟩
      have hnc : ¬ ((some i' = some i ∧ some j' = some j) ∧
          BeatsCell (scoreOfApp wc wt pax f) (acc (i, j))) := by
        rintro ⟨⟨h1, h2⟩, -⟩
        exact hij ⟨Option.some.inj h1, Option.some.inj h2⟩
      rw [if_neg hnc]
      rcases ha : acc (i', j') with _ | c
      · simp [ha, hne]
      · by_cases hlt : scoreOfApp wc wt pax f < c.score <;> simp [ha, hne, hlt]

/-- What `stepBest` leaves at the pair (i, j). -/
theorem stepBest_at (wc wt : ℚ) (pax : ℤ) (cm : String → Option ℕ)
    (acc : ℕ × ℕ → Option BestCell) (f : Flight) (i j : ℕ) :
    stepBest wc wt pax cm acc f (i, j) =
      if Competes cm i j f ∧ BeatsCell (scoreOfApp wc wt pax f) (acc (i, j)) then
        some (mkCell wc wt pax f)
      else acc (i, j) := by
  unfold stepBest Competes
  exact stepBestCore_at wc wt pax acc f (cm f.origin) (cm f.destination) i j

/-- Invariant of the matrix-building fold at one ordered pair: either no
offer seen so far competes and the cell is empty, or the cell holds the
first offer attaining the minimum score (strictly better than everything
before it, at least as good as everything after it). -/
def GoodCell (wc wt : ℚ) (pax : ℤ) (cm : String → Option ℕ) (i j : ℕ)
    (h : List Flight) (r : Option BestCell) : Prop :=
  (r = none ∧ ∀ f ∈ h, ¬ Competes cm i j f) ∨
  (∃ h1 g h2, h = h1 ++ g :: h2 ∧ Competes cm i j g ∧
    r = some (mkCell wc wt pax g) ∧
    (∀ f ∈ h1, Competes cm i j f →
      scoreOfApp wc wt pax g < scoreOfApp wc wt pax f) ∧
    (∀ f ∈ h2, Competes cm i j f →
      scoreOfApp wc wt pax g ≤ scoreOfApp wc wt pax f))

theorem goodCell_step (wc wt : ℚ) (pax : ℤ) (cm : String → Option ℕ)
    (i j : ℕ) (h : List Flight) (acc : ℕ × ℕ → Option BestCell) (f : Flight)
    (hg : GoodCell wc wt pax cm i j h (acc (i, j))) :
    GoodCell wc wt pax cm i j (h ++ [f]) (stepBest wc wt pax cm acc f (i, j)) := by
  rw [stepBest_at]
  by_cases hcond : Competes cm i j f ∧ BeatsCell (scoreOfApp wc wt pax f) (acc (i, j))
  · rw [if_pos hcond]
    obtain ⟨hc, hbeats⟩ := hcond
    rcases hg with ⟨hnone, hall⟩ | ⟨h1, g, h2, rfl, hcg, hsome, hbefore, hafter⟩
    · refine Or.inr ⟨h, f, [], by simp, hc, rfl, ?_, by simp⟩
      intro f' hf' hcf'
      exact absurd hcf' (hall f' hf')
    · rw [hsome] at hbeats
      have hgs : scoreOfApp wc wt pax f < scoreOfApp wc wt pax g := hbeats
      refine Or.inr ⟨h1 ++ g :: h2, f, [], by simp, hc, rfl, ?_, by simp⟩
      intro f' hf' hcf'
      rcases List.mem_append.mp hf' with hmem | hmem
      · exact lt_trans hgs (hbefore f' hmem hcf')
      · rcases List.mem_cons.mp hmem with rfl | hmem
        · exact hgs
        · exact lt_of_lt_of_le hgs (hafter f' hmem hcf')
  · rw [if_neg hcond]
    by_cases hc : Competes cm i j f
    · have hnb : ¬ BeatsCell (scoreOfApp wc wt pax f) (acc (i, j)) :=
        fun hb => hcond ⟨hc, hb⟩
      rcases hg with ⟨hnone, hall⟩ | ⟨h1, g, h2, rfl, hcg, hsome, hbefore, hafter⟩
      · rw [hnone] at hnb
        exact absurd trivial hnb
      · rw [hsome] at hnb
        have hle : scoreOfApp wc wt pax g ≤ scoreOfApp wc wt pax f :=
          le_of_not_lt hnb
        refine Or.inr ⟨h1, g, h2 ++ [f], by simp, hcg, hsome, hbefore, ?_⟩
        intro f' hf' hcf'
        rcases List.mem_append.mp hf' with hmem | hmem
        · exact hafter f' hmem hcf'
        · rcases List.mem_singleton.mp hmem with rfl
          exact hle
    · rcases hg with ⟨hnone, hall⟩ | ⟨h1, g, h2, rfl, hcg, hsome, hbefore, hafter⟩
      · refine Or.inl ⟨hnone, ?_⟩
        intro f' hf'
        rcases List.mem_append.mp hf' with hmem | hmem
        · exact hall f' hmem
        · rcases List.mem_singleton.mp hmem with rfl
          exact hc
      · refine Or.inr ⟨h1, g, h2 ++ [f], by simp, hcg, hsome, hbefore, ?_⟩
        intro f' hf' hcf'
        rcases List.mem_append.mp hf' with hmem | hmem
        · exact hafter f' hmem hcf'
        · rcases List.mem_singleton.mp hmem with rfl
          exact absurd hcf' hc

theorem goodCell_foldl (wc wt : ℚ) (pax : ℤ) (cm : String → Option ℕ)
    (i j : ℕ) :
    ∀ (l : List Flight) (h : List Flight) (acc : ℕ × ℕ → Option BestCell),
      GoodCell wc wt pax cm i j h (acc (i, j)) →
      GoodCell wc wt pax cm i j (h ++ l) (l.foldl (stepBest wc wt pax cm) acc (i, j))
  | [], h, acc, hg => by simpa using hg
  | f :: l, h, acc, hg => by
    have hstep := goodCell_step wc wt pax cm i j h acc f hg
    have := goodCell_foldl wc wt pax cm i j l (h ++ [f])
      (stepBest wc wt pax cm acc f) hstep
    simpa using this

theorem goodCell_build (wc wt : ℚ) (pax : ℤ) (cm : String → Option ℕ)
    (i j : ℕ) (flights : List Flight) :
    GoodCell wc wt pax cm i j flights (buildScoreMatrix wc wt pax cm flights (i, j)) := by
  have := goodCell_foldl wc wt pax cm i j flights [] (fun _ => none)
    (Or.inl ⟨rfl, by simp⟩)
  simpa using this

/-- Claim C1, counterexample to the tie-break clause: two offers for the
pair (A, B) with `weight_cost = 0`, `weight_time = 1` and equal durations
have equal weighted scores, and the second one has the strictly lower
price, yet the matrix-building step retains the first (higher-priced)
offer, because solver_service.py line 51 replaces the cell only on a
strictly smaller score. -/
theorem C1_counterexample :
    scoreOfApp 0 1 1 ⟨"A", "B", 100, 60⟩ = scoreOfApp 0 1 1 ⟨"A", "B", 50, 60⟩ ∧
    (50 : ℚ) < 100 ∧
    buildScoreMatrix 0 1 1 (cityMapOf ["A", "B"])
        [⟨"A", "B", 100, 60⟩, ⟨"A", "B", 50, 60⟩] (0, 1) =
      some (mkCell 0 1 1 ⟨"A", "B", 100, 60⟩) := by
  refine ⟨by norm_num [scoreOfApp], by norm_num, ?_⟩
  have hA : cityMapOf ["A", "B"] "A" = some 0 := by decide
  have hB : cityMapOf ["A", "B"] "B" = some 1 := by decide
  simp only [buildScoreMatrix, List.foldl, stepBest, hA, hB, stepBestCore]
  norm_num [scoreOfApp, mkCell]

/-- Claim C1 (amended): after the matrix-building step, for every ordered
pair (i, j) the retained cell's weighted score is less than or equal to the
score of every competing offer, and the retained offer is the earliest
offer of the input list attaining that minimal score (so ties break toward
the first offer encountered, not toward the lower absolute price). -/
theorem C1_app_matrix_min_score_first_tie (wc wt : ℚ) (pax : ℤ)
    (cm : String → Option ℕ) (flights : List Flight) (i j : ℕ) :
    (∀ f ∈ flights, Competes cm i j f →
      ∃ c, buildScoreMatrix wc wt pax cm flights (i, j) = some c ∧
        c.score ≤ scoreOfApp wc wt pax f) ∧
    (∀ c, buildScoreMatrix wc wt pax cm flights (i, j) = some c →
      ∃ h1 g h2, flights = h1 ++ g :: h2 ∧ Competes cm i j g ∧
        c = mkCell wc wt pax g ∧
        (∀ f ∈ h1, Competes cm i j f →
          scoreOfApp wc wt pax g < scoreOfApp wc wt pax f) ∧
        (∀ f ∈ h2, Competes cm i j f →
          scoreOfApp wc wt pax g ≤ scoreOfApp wc wt pax f)) := by
  have hg := goodCell_build wc wt pax cm i j flights
  constructor
  · intro f hf hcf
    rcases hg with ⟨hnone, hall⟩ | ⟨h1, g, h2, heq, hcg, hsome, hb, ha⟩
    · exact absurd hcf (hall f hf)
    · refine ⟨mkCell wc wt pax g, hsome, ?_⟩
      rw [heq] at hf
      rcases List.mem_append.mp hf with hm | hm
      · exact le_of_lt (hb f hm hcf)
      · rcases List.mem_cons.mp hm with rfl | hm
        · exact le_refl _
        · exact ha f hm hcf
  · intro c hc
    rcases hg with ⟨hnone, _⟩ | ⟨h1, g, h2, heq, hcg, hsome, hb, ha⟩
    · rw [hnone] at hc
      cases hc
    · rw [hsome] at hc
      exact ⟨h1, g, h2, heq, hcg, (Option.some.inj hc).symm, hb, ha⟩

/-- Concrete instantiation of the amended claim C1 at the counterexample
input: the retained cell's score is at most the score of the competing
cheaper offer. -/
theorem C1_app_matrix_min_score_first_tie_witness :
    ∃ c, buildScoreMatrix 0 1 1 (cityMapOf ["A", "B"])
        [⟨"A", "B", 100, 60⟩, ⟨"A", "B", 50, 60⟩] (0, 1) = some c ∧
      c.score ≤ scoreOfApp 0 1 1 ⟨"A", "B", 50, 60⟩ :=
  (C1_app_matrix_min_score_first_tie 0 1 1 (cityMapOf ["A", "B"])
    [⟨"A", "B", 100, 60⟩, ⟨"A", "B", 50, 60⟩] 0 1).1 ⟨"A", "B", 50, 60⟩
    (by simp) (by constructor <;> decide)

/-! ### NSGA-II solver (src/solver_service/models/solver.py) -/

/-- The solver context fields set up by `solve_itinerary` (solver.py lines
312-321) and read by `_is_valid_tour`, `_evaluate_tour` and the
reconstruction. -/
structure NsgaCtx where
  all_cities : List String
  cost_matrix : ℕ → ℕ → ℚ
  time_matrix : ℕ → ℕ → ℤ
  hotel_costs : String → ℚ
  request : TravelRequest

/-- `n = len(all_cities)`. -/
def NsgaCtx.n (ctx : NsgaCtx) : ℕ :=
  ctx.all_cities.length

/-- Python list indexing: a valid index is in `[-n, n)`; a negative index
wraps; anything else raises IndexError (modelled as `none`). -/
def pyIdx (n : ℕ) (i : ℤ) : Option ℕ :=
  if 0 ≤ i ∧ i < (n : ℤ) then some i.toNat
  else if -(n : ℤ) ≤ i ∧ i < 0 then some ((n : ℤ) + i).toNat
  else none

/-- `required_indices.issubset(visited)` of `_is_valid_tour` (solver.py
lines 84-87): every mandatory or destination city known to `city_map` has
its index among the individual's entries. -/
def requiredOk (ctx : NsgaCtx) (ind : List ℤ) : Bool :=
  ((ctx.request.mandatory_cities ++ ctx.request.destination_cities).filterMap
    (fun c => cityMapOf ctx.all_cities c)).all (fun r => decide ((r : ℤ) ∈ ind))

/-- `_is_valid_tour` (solver.py lines 57-87).  The two list accesses
`all_cities[individual[0]]` and `all_cities[individual[-1]]` happen outside
any try block, so an out-of-range entry raises (modelled as `.error`). -/
def isValidTour (ctx : NsgaCtx) (ind : List ℤ) : Except String Bool :=
  if ind.length < 2 ∨ ind.length ≠ ctx.n then .ok false
  else
    match pyIdx ctx.n ind.headI, pyIdx ctx.n ind.getLastI with
    | some i0, some iL =>
        let start_city := ctx.all_cities.getD i0 ""
        let end_city := ctx.all_cities.getD iL ""
        if start_city ∉ ctx.request.origin_cities then .ok false
        else if ctx.request.is_round_trip then
          if end_city ∉ ctx.request.origin_cities then .ok false
          else .ok (requiredOk ctx ind)
        else
          if end_city ∉ ctx.request.destination_cities then .ok false
          else .ok (requiredOk ctx ind)
    | _, _ => .error "IndexError"

/-- The dominating penalty `(1e10, 1e10)` assigned to invalid or
unreachable tours. -/
def penaltyPair : ℚ × ℚ :=
  ((10 : ℚ) ^ 10, (10 : ℚ) ^ 10)

/-- Consecutive index pairs of a tour (`individual[idx], individual[idx+1]`
for `idx in range(len(individual) - 1)`). -/
def consecPairs (ind : List ℤ) : List (ℤ × ℤ) :=
  ind.zip ind.tail

/-- The flight-cost loop of `_evaluate_tour` (solver.py lines 110-122):
accumulate `flight_cost * total_pax` and the duration over consecutive
pairs; a sentinel cost `>= 999999` returns the penalty early (modelled as
`some none`); a bad numpy index raises inside the try block (modelled as
`.error`, caught by the caller). -/
def flightLoop (ctx : NsgaCtx) (pax : ℤ) : List (ℤ × ℤ) → ℚ × ℚ →
    Except String (Option (ℚ × ℚ))
  | [], acc => .ok (some acc)
  | (i, j) :: rest, acc =>
    match pyIdx ctx.n i, pyIdx ctx.n j with
    | some i', some j' =>
      let fc := ctx.cost_matrix i' j'
      if 999999 ≤ fc then .ok none
      else flightLoop ctx pax rest
        (acc.1 + fc * (pax : ℚ), acc.2 + (ctx.time_matrix i' j' : ℚ))
    | _, _ => .error "IndexError"

/-- The hotel-cost loop of `_evaluate_tour` (solver.py lines 125-129) and
of the reconstruction (lines 434-439): add
`hotel_costs.get(city, 0) * stay_days_per_city` for every visited city but
the last. -/
def hotelLoop (ctx : NsgaCtx) : List ℤ → ℚ → Except String ℚ
  | [], acc => .ok acc
  | i :: rest, acc =>
    match pyIdx ctx.n i with
    | some i' =>
      let city := ctx.all_cities.getD i' ""
      hotelLoop ctx rest
        (acc + ctx.hotel_costs city * (ctx.request.stay_days_per_city : ℚ))
    | none => .error "IndexError"

/-- The try block of `_evaluate_tour` (solver.py lines 108-132), with the
passenger count passed explicitly. -/
def evaluateTourBody (ctx : NsgaCtx) (pax : ℤ) (ind : List ℤ) :
    Except String (ℚ × ℚ) :=
  match flightLoop ctx pax (consecPairs ind) (0, 0) with
  | .error e => .error e
  | .ok none => .ok penaltyPair
  | .ok (some (c, d)) =>
    match hotelLoop ctx ind.dropLast c with
    | .error e => .error e
    | .ok c' => .ok (c', d)

/-- `_evaluate_tour` with the passenger count passed explicitly: penalty
for invalid tours; the try block catches its own exceptions into the
penalty, but the `_is_valid_tour` call on line 98 sits outside the try
block, so its exceptions propagate. -/
def evaluateTourAux (ctx : NsgaCtx) (pax : ℤ) (ind : List ℤ) :
    Except String (ℚ × ℚ) :=
  match isValidTour ctx ind with
  | .error e => .error e
  | .ok false => .ok penaltyPair
  | .ok true =>
    match evaluateTourBody ctx pax ind with
    | .error _ => .ok penaltyPair
    | .ok v => .ok v

/-- `_evaluate_tour` (solver.py lines 90-136), with the clamped passenger
count of lines 104-106. -/
def evaluateTour (ctx : NsgaCtx) (ind : List ℤ) : Except String (ℚ × ℚ) :=
  evaluateTourAux ctx (totalPaxOf ctx.request) ind

/-- One reconstructed leg (`ItineraryLegSchema` fields the claims are
about). -/
structure LegN where
  origin : String
  destination : String
  price : ℚ
  duration : ℤ
deriving DecidableEq

/-- The leg-building loop of the NSGA solver's reconstruction (solver.py
lines 410-431): one leg per consecutive pair whose price is below the
sentinel, accumulating `price * total_pax` and the duration. -/
def reconLoop (ctx : NsgaCtx) (pax : ℤ) : List (ℤ × ℤ) →
    Except String (List LegN × ℚ × ℤ)
  | [] => .ok ([], 0, 0)
  | (i, j) :: rest =>
    match pyIdx ctx.n i, pyIdx ctx.n j with
    | some i', some j' =>
      match reconLoop ctx pax rest with
      | .error e => .error e
      | .ok (legs, c, d) =>
        let price := ctx.cost_matrix i' j'
        let dur := ctx.time_matrix i' j'
        if price < 999999 then
          .ok (⟨ctx.all_cities.getD i' "", ctx.all_cities.getD j' "", price, dur⟩ :: legs,
               c + price * (pax : ℤ), d + dur)
        else .ok (legs, c, d)
    | _, _ => .error "IndexError"

/-- The reconstruction with the passenger count passed explicitly. -/
def reconstructAux (ctx : NsgaCtx) (pax : ℤ) (best : List ℤ) :
    Except String (List LegN × ℚ × ℤ) :=
  match reconLoop ctx pax (consecPairs best) with
  | .error e => .error e
  | .ok (legs, c, d) =>
    match hotelLoop ctx best.dropLast c with
    | .error e => .error e
    | .ok c' => .ok (legs, c', d)

/-- Step 9 of `solve_itinerary` (solver.py lines 399-439): rebuild the
itinerary and the totals from the selected individual. -/
def reconstructNsga (ctx : NsgaCtx) (best : List ℤ) :
    Except String (List LegN × ℚ × ℤ) :=
  reconstructAux ctx (totalPaxOf ctx.request) best

/-- Python's `min(l, key=k)`: the first element attaining the minimum. -/
def argminBy {α : Type} (key : α → ℚ) : List α → Option α
  | [] => none
  | x :: xs => some (xs.foldl (fun acc y => if key y < key acc then y else acc) x)

/-- Step 8 of `solve_itinerary` (solver.py lines 391-397): from the first
Pareto front pick the individual minimizing `abs(fitness[0])` when
`weight_cost > weight_time`, else the one minimizing `abs(fitness[1])`. -/
def selectBest (wcost wtime : ℚ) (front : List (List ℤ × (ℚ × ℚ))) :
    Option (List ℤ) :=
  if wtime < wcost then (argminBy (fun p => |p.2.1|) front).map (fun p => p.1)
  else (argminBy (fun p => |p.2.2|) front).map (fun p => p.1)

/-- DEAP domination on two minimized objectives: no objective worse, at
least one strictly better. -/
def dominatesP (a b : ℚ × ℚ) : Prop :=
  (a.1 ≤ b.1 ∧ a.2 ≤ b.2) ∧ (a.1 < b.1 ∨ a.2 < b.2)

instance (a b : ℚ × ℚ) : Decidable (dominatesP a b) := by
  unfold dominatesP; infer_instance

/-- The first front of `deap.tools.sortNondominated(pop, len(pop),
first_front_only=True)`: the members dominated by no member. -/
def firstFront (pop : List (ℚ × ℚ)) : List (ℚ × ℚ) :=
  pop.filter (fun a => ! pop.any (fun b => decide (dominatesP b a)))

/-- The status logic of the NSGA `solve_itinerary` (solver.py lines
280-287, 382-389 and 443-449): `Infeasible` for fewer than two cities or
an empty Pareto front, else `Optimal`. -/
def nsgaStatus (n : ℕ) (finalPop : List (ℚ × ℚ)) : String :=
  if n < 2 then "Infeasible"
  else if firstFront finalPop = [] then "Infeasible"
  else "Optimal"

/-- City consolidation of the NSGA `solve_itinerary` (solver.py lines
265-277): requested cities plus all flight endpoints, deduplicated and
sorted. -/
def allCitiesNsga (req : TravelRequest) (flights : List Flight) : List String :=
  List.insertionSort (fun a b : String => a ≤ b)
    ((req.origin_cities ++ req.destination_cities ++ req.mandatory_cities
      ++ flights.map (fun f => f.origin)
      ++ flights.map (fun f => f.destination)).dedup)

theorem dominatesP_irrefl (a : ℚ × ℚ) : ¬ dominatesP a a := by
  rintro ⟨-, h | h⟩ <;> exact lt_irrefl _ h

theorem dominatesP_trans {a b c : ℚ × ℚ} (h1 : dominatesP a b)
    (h2 : dominatesP b c) : dominatesP a c := by
  obtain ⟨⟨l1, l2⟩, hs⟩ := h1
  obtain ⟨⟨m1, m2⟩, -⟩ := h2
  refine ⟨⟨le_trans l1 m1, le_trans l2 m2⟩, ?_⟩
  rcases hs with h | h
  · exact Or.inl (lt_of_lt_of_le h m1)
  · exact Or.inr (lt_of_lt_of_le h m2)

/-- Every nonempty finite population has a member dominated by no one. -/
theorem exists_undominated : ∀ (pop : List (ℚ × ℚ)), pop ≠ [] →
    ∃ m ∈ pop, ∀ b ∈ pop, ¬ dominatesP b m
  | [], h => absurd rfl h
  | [p], _ => by
    refine ⟨p, by simp, ?_⟩
    intro b hb
    rcases List.mem_singleton.mp hb with rfl
    exact dominatesP_irrefl _
  | p :: q :: rest, _ => by
    obtain ⟨m, hm, hall⟩ := exists_undominated (q :: rest) (by simp)
    by_cases hd : dominatesP p m
    · refine ⟨p, by simp, ?_⟩
      intro b hb
      rcases List.mem_cons.mp hb with rfl | hb
      · exact dominatesP_irrefl _
      · intro hbp
        exact hall b hb (dominatesP_trans hbp hd)
    · refine ⟨m, List.mem_cons_of_mem p hm, ?_⟩
      intro b hb
      rcases List.mem_cons.mp hb with rfl | hb
      · exact hd
      · exact hall b hb

/-- The first Pareto front of a nonempty population is nonempty, so the
`if not pareto_front` guard of solver.py line 382 can never fire. -/
theorem firstFront_ne_nil (pop : List (ℚ × ℚ)) (h : pop ≠ []) :
    firstFront pop ≠ [] := by
  obtain ⟨m, hm, hall⟩ := exists_undominated pop h
  have hmem : m ∈ firstFront pop := by
    refine List.mem_filter.mpr ⟨hm, ?_⟩
    simp only [Bool.not_eq_true', List.any_eq_false, decide_eq_true_eq]
    exact fun b hb => hall b hb
  intro hnil
  rw [hnil] at hmem
  exact List.not_mem_nil m hmem

/-- The request of the C3 failing input: origin A, destination and
mandatory city B, open jaw. -/
def reqC3 : TravelRequest :=
  ⟨["A"], ["B"], ["B"], 1, 0, false, 1, 0, 1, 0⟩

/-- Claim C3, evaluation of the code at the failing input: with mandatory
city "B" and an empty offer list — so "B" has zero inbound and zero
outbound offers — the NSGA `solve_itinerary` consolidates n = 2 cities and
then, for every possible nonempty final population, reports status
"Optimal", never "Infeasible": the infeasibility guard
`if not pareto_front` of solver.py line 382 is dead code because the first
front of a nonempty population is always nonempty. -/
theorem C3_nsga_reports_optimal_despite_isolated_mandatory_city
    (finalPop : List (ℚ × ℚ)) (hp : finalPop ≠ []) :
    allCitiesNsga reqC3 [] = ["A", "B"] ∧
    (([] : List Flight).filter
      (fun f => f.origin == "B" || f.destination == "B")) = [] ∧
    nsgaStatus (allCitiesNsga reqC3 []).length finalPop = "Optimal" := by
  have hcities : allCitiesNsga reqC3 [] = ["A", "B"] := by
    simp [allCitiesNsga, reqC3, List.insertionSort, List.orderedInsert, List.dedup]
    decide
  refine ⟨hcities, rfl, ?_⟩
  rw [hcities]
  unfold nsgaStatus
  rw [if_neg (by norm_num), if_neg (firstFront_ne_nil finalPop hp)]

/-- Concrete instantiation of the C3 evaluation at a one-individual final
population. -/
theorem C3_nsga_reports_optimal_witness :
    nsgaStatus (allCitiesNsga reqC3 []).length [((0 : ℚ), (0 : ℚ))] = "Optimal" :=
  (C3_nsga_reports_optimal_despite_isolated_mandatory_city
    [((0 : ℚ), (0 : ℚ))] (by simp)).2.2

theorem headI_mem_of_ne_nil {l : List ℤ} (h : l ≠ []) : l.headI ∈ l := by
  cases l with
  | nil => exact absurd rfl h
  | cons a t => exact List.mem_cons_self a t

theorem getLastI_mem_of_ne_nil {l : List ℤ} (h : l ≠ []) : l.getLastI ∈ l := by
  rw [List.getLastI_eq_getLast? l]
  cases hl : l.getLast? with
  | none => exact absurd (List.getLast?_eq_none_iff.mp hl) h
  | some a =>
    have ha : a ∈ l := by
      obtain ⟨h', he⟩ := List.mem_getLast?_eq_getLast (by rw [hl]; rfl)
      rw [he]
      exact List.getLast_mem h'
    simpa using ha

theorem pyIdx_some_of_range (n : ℕ) (v : ℤ) (h1 : -(n : ℤ) ≤ v)
    (h2 : v < (n : ℤ)) : ∃ k, pyIdx n v = some k ∧ k < n := by
  unfold pyIdx
  by_cases h0 : 0 ≤ v
  · rw [if_pos ⟨h0, h2⟩]
    exact ⟨v.toNat, rfl, by omega⟩
  · rw [if_neg (by omega), if_pos ⟨h1, by omega⟩]
    exact ⟨((n : ℤ) + v).toNat, rfl, by omega⟩

/-- For in-range entries `_is_valid_tour` returns a Boolean, never an
IndexError. -/
theorem isValidTour_ok (ctx : NsgaCtx) (ind : List ℤ)
    (hr : ∀ v ∈ ind, -(ctx.n : ℤ) ≤ v ∧ v < (ctx.n : ℤ)) :
    ∃ b, isValidTour ctx ind = .ok b := by
  unfold isValidTour
  by_cases hlen : ind.length < 2 ∨ ind.length ≠ ctx.n
  · rw [if_pos hlen]
    exact ⟨false, rfl⟩
  · rw [if_neg hlen]
    push_neg at hlen
    have hne : ind ≠ [] := by
      intro h
      rw [h] at hlen
      simp at hlen
    obtain ⟨h01, h02⟩ := hr _ (headI_mem_of_ne_nil hne)
    obtain ⟨hL1, hL2⟩ := hr _ (getLastI_mem_of_ne_nil hne)
    obtain ⟨i0, hi0, -⟩ := pyIdx_some_of_range ctx.n ind.headI h01 h02
    obtain ⟨iL, hiL, -⟩ := pyIdx_some_of_range ctx.n ind.getLastI hL1 hL2
    rw [hi0, hiL]
    dsimp only
    split_ifs <;> exact ⟨_, rfl⟩

/-- The consecutive pair `p` of a tour crosses an unreachable sentinel
edge. -/
def sentinelAt (ctx : NsgaCtx) (p : ℤ × ℤ) : Prop :=
  ∃ i' j', pyIdx ctx.n p.1 = some i' ∧ pyIdx ctx.n p.2 = some j' ∧
    (999999 : ℚ) ≤ ctx.cost_matrix i' j'

theorem flightLoop_ok (ctx : NsgaCtx) (pax : ℤ) :
    ∀ (l : List (ℤ × ℤ)) (acc : ℚ × ℚ),
      (∀ p ∈ l, (-(ctx.n : ℤ) ≤ p.1 ∧ p.1 < (ctx.n : ℤ)) ∧
        (-(ctx.n : ℤ) ≤ p.2 ∧ p.2 < (ctx.n : ℤ))) →
      ∃ r, flightLoop ctx pax l acc = .ok r
  | [], acc, _ => ⟨some acc, rfl⟩
  | (i, j) :: rest, acc, h => by
    obtain ⟨⟨hi1, hi2⟩, hj1, hj2⟩ := h (i, j) (List.mem_cons_self _ _)
    obtain ⟨i', hi', -⟩ := pyIdx_some_of_range ctx.n i hi1 hi2
    obtain ⟨j', hj', -⟩ := pyIdx_some_of_range ctx.n j hj1 hj2
    unfold flightLoop
    rw [hi', hj']
    dsimp only
    by_cases hs : (999999 : ℚ) ≤ ctx.cost_matrix i' j'
    · rw [if_pos hs]
      exact ⟨none, rfl⟩
    · rw [if_neg hs]
      exact flightLoop_ok ctx pax rest _
        (fun p hp => h p (List.mem_cons_of_mem _ hp))

theorem flightLoop_sentinel (ctx : NsgaCtx) (pax : ℤ) :
    ∀ (l : List (ℤ × ℤ)) (acc : ℚ × ℚ),
      (∀ p ∈ l, (-(ctx.n : ℤ) ≤ p.1 ∧ p.1 < (ctx.n : ℤ)) ∧
        (-(ctx.n : ℤ) ≤ p.2 ∧ p.2 < (ctx.n : ℤ))) →
      (∃ p ∈ l, sentinelAt ctx p) →
      flightLoop ctx pax l acc = .ok none
  | [], _, _, hex => by
    obtain ⟨p, hp, -⟩ := hex
    exact absurd hp (List.not_mem_nil p)
  | (i, j) :: rest, acc, h, hex => by
    obtain ⟨⟨hi1, hi2⟩, hj1, hj2⟩ := h (i, j) (List.mem_cons_self _ _)
    obtain ⟨i', hi', -⟩ := pyIdx_some_of_range ctx.n i hi1 hi2
    obtain ⟨j', hj', -⟩ := pyIdx_some_of_range ctx.n j hj1 hj2
    unfold flightLoop
    rw [hi', hj']
    dsimp only
    by_cases hs : (999999 : ℚ) ≤ ctx.cost_matrix i' j'
    · rw [if_pos hs]
    · rw [if_neg hs]
      apply flightLoop_sentinel ctx pax rest _
        (fun p hp => h p (List.mem_cons_of_mem _ hp))
      obtain ⟨p, hp, hsent⟩ := hex
      rcases List.mem_cons.mp hp with rfl | hp
      · obtain ⟨a, b, ha, hb, hab⟩ := hsent
        rw [hi'] at ha
        rw [hj'] at hb
        rw [← Option.some.inj ha, ← Option.some.inj hb] at hab
        exact absurd hab hs
      · exact ⟨p, hp, hsent⟩

theorem hotelLoop_ok (ctx : NsgaCtx) :
    ∀ (l : List ℤ) (acc : ℚ),
      (∀ v ∈ l, -(ctx.n : ℤ) ≤ v ∧ v < (ctx.n : ℤ)) →
      ∃ r, hotelLoop ctx l acc = .ok r
  | [], acc, _ => ⟨acc, rfl⟩
  | i :: rest, acc, h => by
    obtain ⟨hi1, hi2⟩ := h i (List.mem_cons_self _ _)
    obtain ⟨i', hi', -⟩ := pyIdx_some_of_range ctx.n i hi1 hi2
    unfold hotelLoop
    rw [hi']
    exact hotelLoop_ok ctx rest _ (fun v hv => h v (List.mem_cons_of_mem _ hv))

theorem consecPairs_range (ctx : NsgaCtx) (ind : List ℤ)
    (hr : ∀ v ∈ ind, -(ctx.n : ℤ) ≤ v ∧ v < (ctx.n : ℤ)) :
    ∀ p ∈ consecPairs ind, (-(ctx.n : ℤ) ≤ p.1 ∧ p.1 < (ctx.n : ℤ)) ∧
      (-(ctx.n : ℤ) ≤ p.2 ∧ p.2 < (ctx.n : ℤ)) := by
  intro p hp
  obtain ⟨h1, h2⟩ := List.of_mem_zip hp
  exact ⟨hr p.1 h1, hr p.2 (List.mem_of_mem_tail h2)⟩

/-- The NsgaCtx of the C5 counterexample: two cities, all edges free. -/
def ctx5 : NsgaCtx :=
  ⟨["A", "B"], fun _ _ => 0, fun _ _ => 0, fun _ => 0,
    ⟨["A"], ["B"], [], 1, 0, false, 1, 1, 1, 0⟩⟩

/-- Claim C5, counterexample to the no-exception clause: the well-typed
individual `[5, 0]` has the right length for the two-city context, but its
out-of-range entry makes `all_cities[individual[0]]` raise an IndexError
inside `_is_valid_tour` — which `_evaluate_tour` calls outside its try
block (solver.py line 98), so the exception propagates instead of being
turned into the penalty. -/
theorem C5_counterexample :
    evaluateTour ctx5 [5, 0] = .error "IndexError" := rfl

/-- Claim C5 (amended): for every individual whose entries are valid
Python indices for the city list, `_evaluate_tour` never raises; it
returns the dominating penalty `(1e10, 1e10)` whenever the validity
predicate fails, and likewise whenever some consecutive pair crosses an
unreachable sentinel edge.  Individuals with an out-of-range entry instead
raise an IndexError from `_is_valid_tour` that `_evaluate_tour` does not
catch. -/
theorem C5_evaluate_penalty_and_totality (ctx : NsgaCtx) (ind : List ℤ)
    (hr : ∀ v ∈ ind, -(ctx.n : ℤ) ≤ v ∧ v < (ctx.n : ℤ)) :
    (∃ r, evaluateTour ctx ind = .ok r) ∧
    (isValidTour ctx ind = .ok false → evaluateTour ctx ind = .ok penaltyPair) ∧
    ((∃ p ∈ consecPairs ind, sentinelAt ctx p) →
      evaluateTour ctx ind = .ok penaltyPair) := by
  obtain ⟨b, hb⟩ := isValidTour_ok ctx ind hr
  have hpairs := consecPairs_range ctx ind hr
  cases b with
  | false =>
    have hev : evaluateTour ctx ind = .ok penaltyPair := by
      unfold evaluateTour evaluateTourAux
      rw [hb]
    exact ⟨⟨penaltyPair, hev⟩, fun _ => hev, fun _ => hev⟩
  | true =>
    have hdrop : ∀ v ∈ ind.dropLast, -(ctx.n : ℤ) ≤ v ∧ v < (ctx.n : ℤ) :=
      fun v hv => hr v (List.mem_of_mem_dropLast hv)
    constructor
    · obtain ⟨r0, hr0⟩ := flightLoop_ok ctx (totalPaxOf ctx.request)
        (consecPairs ind) (0, 0) hpairs
      cases r0 with
      | none =>
        refine ⟨penaltyPair, ?_⟩
        unfold evaluateTour evaluateTourAux evaluateTourBody
        rw [hb, hr0]
      | some cd =>
        obtain ⟨c, d⟩ := cd
        obtain ⟨c', hc'⟩ := hotelLoop_ok ctx ind.dropLast c hdrop
        refine ⟨(c', d), ?_⟩
        unfold evaluateTour evaluateTourAux evaluateTourBody
        rw [hb, hr0]
        dsimp only
        rw [hc']
    constructor
    · intro hfalse
      rw [hb] at hfalse
      cases hfalse
    · intro hsent
      have hnone := flightLoop_sentinel ctx (totalPaxOf ctx.request)
        (consecPairs ind) (0, 0) hpairs hsent
      unfold evaluateTour evaluateTourAux evaluateTourBody
      rw [hb, hnone]

/-- Concrete instantiation of the amended claim C5: the in-range
individual `[0, 1]` is evaluated without an exception. -/
theorem C5_evaluate_penalty_and_totality_witness :
    (∀ v ∈ ([0, 1] : List ℤ), -(ctx5.n : ℤ) ≤ v ∧ v < (ctx5.n : ℤ)) ∧
    ∃ r, evaluateTour ctx5 [0, 1] = .ok r :=
  ⟨by decide, (C5_evaluate_penalty_and_totality ctx5 [0, 1] (by decide)).1⟩

/-- The NsgaCtx of the C4 counterexample: three cities, two origin cities
"A" and "C", a round trip, and real edges A→B and B→C only. -/
def ctx4 : NsgaCtx :=
  ⟨["A", "B", "C"],
    fun i j =>
      if i = 0 ∧ j = 1 then 100 else if i = 1 ∧ j = 2 then 100 else 999999,
    fun _ _ => 60,
    fun _ => 0,
    ⟨["A", "C"], [], [], 1, 0, true, 1, 0, 1, 0⟩⟩

/-- Claim C4, counterexample: with `is_round_trip = true` and the two
origin cities "A" and "C", the permutation `[0, 1, 2]` passes
`_is_valid_tour` (its end city only has to lie in `origin_cities`, lines
76-78 of solver.py), it is what `selectBest` returns from a Pareto front
containing it, and its reconstructed non-empty itinerary starts at "A" but
ends at "C": the first leg's origin differs from the last leg's
destination. -/
theorem C4_counterexample :
    ctx4.request.is_round_trip = true ∧
    isValidTour ctx4 [0, 1, 2] = .ok true ∧
    selectBest ctx4.request.weight_cost ctx4.request.weight_time
      [([0, 1, 2], (200, 120))] = some [0, 1, 2] ∧
    reconstructNsga ctx4 [0, 1, 2] =
      .ok ([⟨"A", "B", 100, 60⟩, ⟨"B", "C", 100, 60⟩], 200, 120) ∧
    ("A" : String) ≠ "C" := by
  refine ⟨rfl, rfl, ?_, ?_, by decide⟩
  · unfold selectBest
    rw [if_pos (by norm_num [ctx4])]
    rfl
  · unfold reconstructNsga reconstructAux
    norm_num [reconLoop, consecPairs, ctx4, totalPaxOf, clampPax, pyIdx,
      hotelLoop, NsgaCtx.n]
    norm_num [show Int.toNat 2 = 2 from rfl]

/-- Claim C4 (amended): for the NSGA solver, when `is_round_trip` is true
a tour accepted by `_is_valid_tour` has its first city in `origin_cities`
and its last city in `origin_cities` — but the two need not be the same
city, as the counterexample shows. -/
theorem C4_round_trip_endpoints_in_origins (ctx : NsgaCtx) (ind : List ℤ)
    (hv : isValidTour ctx ind = .ok true)
    (hrt : ctx.request.is_round_trip = true) :
    ∃ i0 iL, pyIdx ctx.n ind.headI = some i0 ∧
      pyIdx ctx.n ind.getLastI = some iL ∧
      ctx.all_cities.getD i0 "" ∈ ctx.request.origin_cities ∧
      ctx.all_cities.getD iL "" ∈ ctx.request.origin_cities := by
  unfold isValidTour at hv
  by_cases hlen : ind.length < 2 ∨ ind.length ≠ ctx.n
  · rw [if_pos hlen] at hv
    simp at hv
  · rw [if_neg hlen] at hv
    cases hi0 : pyIdx ctx.n ind.headI with
    | none =>
      rw [hi0] at hv
      dsimp only at hv
      simp at hv
    | some i0 =>
      cases hiL : pyIdx ctx.n ind.getLastI with
      | none =>
        rw [hi0, hiL] at hv
        dsimp only at hv
        simp at hv
      | some iL =>
        rw [hi0, hiL] at hv
        dsimp only at hv
        rw [hrt] at hv
        simp only [if_true] at hv
        split_ifs at hv with h1 h2
        all_goals
          first
            | exact ⟨i0, iL, rfl, rfl, h1, h2⟩
            | simp at hv

/-- Concrete instantiation of the amended claim C4 at the counterexample
tour. -/
theorem C4_round_trip_endpoints_in_origins_witness :
    ∃ i0 iL, pyIdx ctx4.n ([0, 1, 2] : List ℤ).headI = some i0 ∧
      pyIdx ctx4.n ([0, 1, 2] : List ℤ).getLastI = some iL ∧
      ctx4.all_cities.getD i0 "" ∈ ctx4.request.origin_cities ∧
      ctx4.all_cities.getD iL "" ∈ ctx4.request.origin_cities :=
  C4_round_trip_endpoints_in_origins ctx4 [0, 1, 2] rfl rfl

/-- The matrix-building step of the app MILP solver as called by
`solve_itinerary`, with the clamped passenger count of solver_service.py
lines 32-33. -/
def appBuild (req : TravelRequest) (cm : String → Option ℕ)
    (flights : List Flight) : ℕ × ℕ → Option BestCell :=
  buildScoreMatrix req.weight_cost req.weight_time (totalPaxOf req) cm flights

theorem totalPaxOf_eq_one (req : TravelRequest)
    (h : req.pax_adults + req.pax_children < 1) : totalPaxOf req = 1 := by
  unfold totalPaxOf clampPax
  rw [if_pos h]

/-- Claim C10: when `pax_adults + pax_children < 1`, the NSGA fitness
evaluation, the NSGA itinerary reconstruction and the app MILP edge
scoring all run with the passenger count clamped to 1: each equals the
same computation with the passenger count literally 1. -/
theorem C10_pax_clamped_to_one (req : TravelRequest) (ctx : NsgaCtx)
    (cm : String → Option ℕ) (flights : List Flight) (ind best : List ℤ)
    (h : req.pax_adults + req.pax_children < 1)
    (hc : ctx.request.pax_adults + ctx.request.pax_children < 1) :
    totalPaxOf req = 1 ∧
    appBuild req cm flights =
      buildScoreMatrix req.weight_cost req.weight_time 1 cm flights ∧
    evaluateTour ctx ind = evaluateTourAux ctx 1 ind ∧
    reconstructNsga ctx best = reconstructAux ctx 1 best := by
  refine ⟨totalPaxOf_eq_one req h, ?_, ?_, ?_⟩
  · unfold appBuild
    rw [totalPaxOf_eq_one req h]
  · unfold evaluateTour
    rw [totalPaxOf_eq_one ctx.request hc]
  · unfold reconstructNsga
    rw [totalPaxOf_eq_one ctx.request hc]

/-- Concrete instantiation of claim C10 at a request with zero
passengers. -/
theorem C10_pax_clamped_to_one_witness :
    totalPaxOf ⟨["A"], ["B"], [], 0, 0, false, 1, 1, 1, 0⟩ = 1 ∧
    evaluateTour ⟨["A", "B"], fun _ _ => 0, fun _ _ => 0, fun _ => 0,
        ⟨["A"], ["B"], [], 0, 0, false, 1, 1, 1, 0⟩⟩ [0, 1] =
      evaluateTourAux ⟨["A", "B"], fun _ _ => 0, fun _ _ => 0, fun _ => 0,
        ⟨["A"], ["B"], [], 0, 0, false, 1, 1, 1, 0⟩⟩ 1 [0, 1] := by
  have h := C10_pax_clamped_to_one ⟨["A"], ["B"], [], 0, 0, false, 1, 1, 1, 0⟩
    ⟨["A", "B"], fun _ _ => 0, fun _ _ => 0, fun _ => 0,
      ⟨["A"], ["B"], [], 0, 0, false, 1, 1, 1, 0⟩⟩
    (cityMapOf ["A", "B"]) [] [0, 1] [0, 1] (by norm_num) (by norm_num)
  exact ⟨h.1, h.2.2.1⟩

/-! ### Component error boundaries (C6) -/

/-- The solver result fields of `SolverResult` / `SolveResponseSchema`
that the error boundaries fill in. -/
structure SolverResultA where
  status : String
  itinerary : List LegN
  total_cost : ℚ
  total_duration : ℤ
  warning_message : Option String
deriving DecidableEq

/-- The except-handler of the app `solve_itinerary` (solver_service.py
lines 222-231): any exception raised inside the function body is caught
and turned into a result with status `"Error: <msg>"` and the diagnostic
in `warning_message`; the body is modelled as an arbitrary `Except`
outcome. -/
def appSolveBoundary (body : Except String SolverResultA) : SolverResultA :=
  match body with
  | .ok r => r
  | .error e => ⟨"Error: " ++ e, [], 0, 0, some ("Solver Crashed: " ++ e)⟩

/-- The except-handler of the NSGA `solve_itinerary` (solver.py lines
451-459): status is exactly `"Error"` with the diagnostic in
`warning_message`. -/
def nsgaSolveBoundary (body : Except String SolverResultA) : SolverResultA :=
  match body with
  | .ok r => r
  | .error e => ⟨"Error", [], 0, 0, some ("Solver error: " ++ e)⟩

/-- Claim C6, counterexample to the exact-status clause: for the app
service component (solver_service.py line 226), an internal exception with
message "boom" yields status `"Error: boom"`, which is not the distinct
value `"Error"` that the claim requires. -/
theorem C6_counterexample :
    (appSolveBoundary (.error "boom")).status = "Error: boom" ∧
    (appSolveBoundary (.error "boom")).status ≠ "Error" := by
  exact ⟨rfl, by decide⟩

/-- Claim C6 (amended): an internal exception never escapes either
component boundary: both return a well-formed result carrying the
diagnostic in `warning_message`; the solver_service component's status is
exactly `"Error"`, while the app component's status is the message
prefixed with `"Error: "` (and thus distinct from `"Optimal"` and
`"Infeasible"`, though not literally equal to `"Error"`). -/
theorem C6_error_boundaries (e : String) (r : SolverResultA) :
    appSolveBoundary (.ok r) = r ∧
    nsgaSolveBoundary (.ok r) = r ∧
    (nsgaSolveBoundary (.error e)).status = "Error" ∧
    (nsgaSolveBoundary (.error e)).warning_message =
      some ("Solver error: " ++ e) ∧
    (nsgaSolveBoundary (.error e)).itinerary = [] ∧
    (appSolveBoundary (.error e)).status = "Error: " ++ e ∧
    (appSolveBoundary (.error e)).warning_message =
      some ("Solver Crashed: " ++ e) ∧
    (appSolveBoundary (.error e)).itinerary = [] :=
  ⟨rfl, rfl, rfl, rfl, rfl, rfl, rfl, rfl⟩

/-! ### InfeasibilityAdvisor (C9)
(src/app/services/geo_service.py, src/app/api/endpoints/flights.py lines
160-176).  The great-circle distance itself is a float trigonometric
computation; it is abstracted as a distance-function parameter, and every
property below holds for an arbitrary distance function. -/

/-- `AIRPORT_COORDS` of geo_service.py lines 7-19. -/
def AIRPORT_COORDS : List (String × ℚ × ℚ) :=
  [("GRU", -23.4356, -46.4731), ("GIG", -22.8089, -43.2436),
   ("CNF", -19.6244, -43.9719), ("BSB", -15.869, -47.9208),
   ("SSA", -12.9086, -38.3225), ("MIA", 25.7959, -80.2870),
   ("MCO", 28.4312, -81.3080), ("JFK", 40.6413, -73.7781),
   ("LHR", 51.4700, -0.4543), ("CDG", 49.0097, 2.5479)]

/-- `CITY_TO_IATA` of geo_service.py lines 21-31. -/
def CITY_TO_IATA : List (String × String) :=
  [("São Paulo", "GRU"), ("Rio de Janeiro", "GIG"),
   ("Belo Horizonte", "CNF"), ("Brasília", "BSB"), ("Miami", "MIA"),
   ("Orlando", "MCO"), ("New York", "JFK"), ("London", "LHR"),
   ("Paris", "CDG")]

/-- Python dict `get`. -/
def lookupStr {α : Type} (l : List (String × α)) (k : String) : Option α :=
  (l.find? (fun p => p.1 == k)).map (fun p => p.2)

/-- `get_coords` (geo_service.py lines 51-55). -/
def getCoords (city : String) : Option (ℚ × ℚ) :=
  match lookupStr CITY_TO_IATA city with
  | some iata => lookupStr AIRPORT_COORDS iata
  | none => none

/-- The minimum-tracking loop of `find_nearest_airport` (geo_service.py
lines 65-76), over an abstract distance function. -/
def nearestFold (dist : (ℚ × ℚ) → (ℚ × ℚ) → ℚ) (target : String)
    (tc : ℚ × ℚ) : List (String × String) → Option (String × ℚ) →
    Option (String × ℚ)
  | [], best => best
  | (city, iata) :: rest, best =>
    if city == target then nearestFold dist target tc rest best
    else
      match lookupStr AIRPORT_COORDS iata with
      | some coords =>
        let d := dist tc coords
        let newBest :=
          match best with
          | none => some (city, d)
          | some (bc, bd) => if d < bd then some (city, d) else some (bc, bd)
        nearestFold dist target tc rest newBest
      | none => nearestFold dist target tc rest best

/-- `find_nearest_airport` (geo_service.py lines 57-78): `none` when the
target city has no known coordinates; otherwise the Python function
returns the tuple `(nearest_city, min_dist)`, whose city part is `None`
when no other city has coordinates (modelled by the inner Option). -/
def findNearestAirport (dist : (ℚ × ℚ) → (ℚ × ℚ) → ℚ) (target : String) :
    Option (Option (String × ℚ)) :=
  match getCoords target with
  | none => none
  | some tc => some (nearestFold dist target tc CITY_TO_IATA none)

/-- `suggest_ground_transport` (geo_service.py lines 80-85); the two city
names are unused by the source function as well. -/
def suggestGroundTransport (_origin_city _dest_city : String)
    (distance_km : ℚ) : String :=
  if distance_km < 400 then
    "Car Rental suggested. Drive approx " ++ toString (distance_km / 80) ++
      " hours (" ++ toString distance_km ++ " km)."
  else "Distance too far for driving recommendation. Check trains or buses."

/-- The advisory string of flights.py line 172. -/
def advisoryString (near : String) (transport : String) : String :=
  "Voe para " ++ near ++ " e pegue o transporte terrestre (" ++ transport ++ ")"

/-- Python string conversion of an optional city name (`None` prints as
"None"). -/
def pyOptStr : Option String → String
  | some s => s
  | none => "None"

/-- The suggestion list built by flights.py lines 164-172: one advisory
per requested destination with zero inbound offers and a known nearest
airport. -/
def suggestionsFor (dist : (ℚ × ℚ) → (ℚ × ℚ) → ℚ) (dests : List String)
    (flights : List Flight) : List String :=
  dests.filterMap (fun dest =>
    if flights.any (fun f => f.destination == dest) then none
    else
      match findNearestAirport dist dest with
      | some result =>
        match result with
        | some (near, d) =>
          some (advisoryString near (suggestGroundTransport near dest d))
        | none =>
          some (advisoryString "None"
            "Distance too far for driving recommendation. Check trains or buses.")
      | none => none)

/-- The advisory step of `solve_trip` (flights.py lines 160-176): when the
solve result is not Optimal, join the suggestions into
`warning_message`; nothing else of the result is touched and the solver is
not called again. -/
def advisoryStep (dist : (ℚ × ℚ) → (ℚ × ℚ) → ℚ) (result : SolverResultA)
    (dests : List String) (flights : List Flight) : SolverResultA :=
  if result.status ≠ "Optimal" then
    let suggestions := suggestionsFor dist dests flights
    if suggestions ≠ [] then
      let msg := String.intercalate " | " suggestions
      { result with warning_message := some msg }
    else result
  else result

/-- Once the running best is set, the fold returns a candidate whose
distance never exceeds the running best's. -/
theorem nearestFold_some (dist : (ℚ × ℚ) → (ℚ × ℚ) → ℚ) (target : String)
    (tc : ℚ × ℚ) :
    ∀ (l : List (String × String)) (bc : String) (bd : ℚ),
      ∃ n d, nearestFold dist target tc l (some (bc, bd)) = some (n, d) ∧ d ≤ bd
  | [], bc, bd => ⟨bc, bd, rfl, le_refl bd⟩
  | (city, iata) :: rest, bc, bd => by
    unfold nearestFold
    by_cases hbt : (city == target) = true
    · rw [if_pos hbt]
      exact nearestFold_some dist target tc rest bc bd
    · rw [if_neg hbt]
      cases hco : lookupStr AIRPORT_COORDS iata with
      | none => exact nearestFold_some dist target tc rest bc bd
      | some co =>
        dsimp only
        by_cases hlt : dist tc co < bd
        · rw [if_pos hlt]
          obtain ⟨n, d, hfold, hle⟩ :=
            nearestFold_some dist target tc rest city (dist tc co)
          exact ⟨n, d, hfold, le_of_lt (lt_of_le_of_lt hle hlt)⟩
        · rw [if_neg hlt]
          exact nearestFold_some dist target tc rest bc bd

/-- If the remaining list holds a qualifying entry, the fold finds some
candidate. -/
theorem nearestFold_some_of_entry (dist : (ℚ × ℚ) → (ℚ × ℚ) → ℚ)
    (target : String) (tc : ℚ × ℚ) :
    ∀ (l : List (String × String)) (best : Option (String × ℚ)),
      (∃ city iata co, (city, iata) ∈ l ∧ city ≠ target ∧
        lookupStr AIRPORT_COORDS iata = some co) →
      ∃ n d, nearestFold dist target tc l best = some (n, d)
  | [], _, hex => by
    obtain ⟨city, iata, co, hmem, -, -⟩ := hex
    exact absurd hmem (List.not_mem_nil _)
  | (city, iata) :: rest, best, hex => by
    unfold nearestFold
    by_cases hbt : (city == target) = true
    · rw [if_pos hbt]
      apply nearestFold_some_of_entry dist target tc rest best
      obtain ⟨c', i', co, hmem, hne, hco⟩ := hex
      rcases List.mem_cons.mp hmem with heq | hmem
      · simp only [Prod.mk.injEq] at heq
        obtain ⟨rfl, rfl⟩ := heq
        exact absurd (eq_of_beq hbt) hne
      · exact ⟨c', i', co, hmem, hne, hco⟩
    · rw [if_neg hbt]
      cases hco : lookupStr AIRPORT_COORDS iata with
      | none =>
        apply nearestFold_some_of_entry dist target tc rest best
        obtain ⟨c', i', co', hmem, hne, hco'⟩ := hex
        rcases List.mem_cons.mp hmem with heq | hmem
        · simp only [Prod.mk.injEq] at heq
          obtain ⟨rfl, rfl⟩ := heq
          rw [hco] at hco'
          cases hco'
        · exact ⟨c', i', co', hmem, hne, hco'⟩
      | some co =>
        dsimp only
        cases best with
        | none =>
          obtain ⟨n, d, hfold, -⟩ :=
            nearestFold_some dist target tc rest city (dist tc co)
          exact ⟨n, d, hfold⟩
        | some bp =>
          obtain ⟨bc, bd⟩ := bp
          dsimp only
          by_cases hlt : dist tc co < bd
          · rw [if_pos hlt]
            obtain ⟨n, d, hfold, -⟩ :=
              nearestFold_some dist target tc rest city (dist tc co)
            exact ⟨n, d, hfold⟩
          · rw [if_neg hlt]
            obtain ⟨n, d, hfold, -⟩ :=
              nearestFold_some dist target tc rest bc bd
            exact ⟨n, d, hfold⟩

/-- The fold's result minimizes the distance over the processed entries
(and never exceeds the starting best). -/
theorem nearestFold_min (dist : (ℚ × ℚ) → (ℚ × ℚ) → ℚ) (target : String)
    (tc : ℚ × ℚ) :
    ∀ (l : List (String × String)) (best : Option (String × ℚ)) (n : String)
      (d : ℚ), nearestFold dist target tc l best = some (n, d) →
      (∀ bc bd, best = some (bc, bd) → d ≤ bd) ∧
      (∀ city iata, (city, iata) ∈ l → city ≠ target →
        ∀ c, lookupStr AIRPORT_COORDS iata = some c → d ≤ dist tc c)
  | [], best, n, d, hfold => by
    constructor
    · intro bc bd hbest
      rw [hbest] at hfold
      unfold nearestFold at hfold
      obtain ⟨-, h2⟩ := Prod.ext_iff.mp (Option.some.inj hfold)
      exact le_of_eq h2.symm
    · intro city iata hmem
      exact absurd hmem (List.not_mem_nil _)
  | (city, iata) :: rest, best, n, d, hfold => by
    unfold nearestFold at hfold
    by_cases hbt : (city == target) = true
    · rw [if_pos hbt] at hfold
      obtain ⟨ih1, ih2⟩ := nearestFold_min dist target tc rest best n d hfold
      refine ⟨ih1, ?_⟩
      intro c' i' hmem hne c hc
      rcases List.mem_cons.mp hmem with heq | hmem
      · simp only [Prod.mk.injEq] at heq
        obtain ⟨rfl, rfl⟩ := heq
        exact absurd (eq_of_beq hbt) hne
      · exact ih2 c' i' hmem hne c hc
    · rw [if_neg hbt] at hfold
      cases hco : lookupStr AIRPORT_COORDS iata with
      | none =>
        rw [hco] at hfold
        obtain ⟨ih1, ih2⟩ := nearestFold_min dist target tc rest best n d hfold
        refine ⟨ih1, ?_⟩
        intro c' i' hmem hne c hc
        rcases List.mem_cons.mp hmem with heq | hmem
        · simp only [Prod.mk.injEq] at heq
          obtain ⟨rfl, rfl⟩ := heq
          rw [hco] at hc
          cases hc
        · exact ih2 c' i' hmem hne c hc
      | some co =>
        rw [hco] at hfold
        dsimp only at hfold
        cases best with
        | none =>
          dsimp only at hfold
          obtain ⟨ih1, ih2⟩ :=
            nearestFold_min dist target tc rest (some (city, dist tc co)) n d hfold
          have hd : d ≤ dist tc co := ih1 city (dist tc co) rfl
          refine ⟨?_, ?_⟩
          · intro bc bd hbest
            cases hbest
          intro c' i' hmem hne c hc
          rcases List.mem_cons.mp hmem with heq | hmem
          · simp only [Prod.mk.injEq] at heq
            obtain ⟨rfl, rfl⟩ := heq
            rw [hco] at hc
            rw [← Option.some.inj hc]
            exact hd
          · exact ih2 c' i' hmem hne c hc
        | some bp =>
          obtain ⟨bc0, bd0⟩ := bp
          dsimp only at hfold
          by_cases hlt : dist tc co < bd0
          · rw [if_pos hlt] at hfold
            obtain ⟨ih1, ih2⟩ := nearestFold_min dist target tc rest
              (some (city, dist tc co)) n d hfold
            have hd : d ≤ dist tc co := ih1 city (dist tc co) rfl
            constructor
            · intro bc bd hbest
              obtain ⟨-, h2⟩ := Prod.mk.injEq .. ▸ Option.some.inj hbest
              rw [← h2]
              exact le_of_lt (lt_of_le_of_lt hd hlt)
            · intro c' i' hmem hne c hc
              rcases List.mem_cons.mp hmem with heq | hmem
              · simp only [Prod.mk.injEq] at heq
                obtain ⟨rfl, rfl⟩ := heq
                rw [hco] at hc
                rw [← Option.some.inj hc]
                exact hd
              · exact ih2 c' i' hmem hne c hc
          · rw [if_neg hlt] at hfold
            obtain ⟨ih1, ih2⟩ := nearestFold_min dist target tc rest
              (some (bc0, bd0)) n d hfold
            have hd : d ≤ bd0 := ih1 bc0 bd0 rfl
            constructor
            · intro bc bd hbest
              obtain ⟨-, h2⟩ := Prod.mk.injEq .. ▸ Option.some.inj hbest
              rw [← h2]
              exact hd
            · intro c' i' hmem hne c hc
              rcases List.mem_cons.mp hmem with heq | hmem
              · simp only [Prod.mk.injEq] at heq
                obtain ⟨rfl, rfl⟩ := heq
                rw [hco] at hc
                rw [← Option.some.inj hc]
                exact le_trans hd (le_of_not_lt hlt)
              · exact ih2 c' i' hmem hne c hc

/-- The coordinate table always offers a candidate different from any
given target city. -/
theorem exists_other_city (dest : String) :
    ∃ city iata co, (city, iata) ∈ CITY_TO_IATA ∧ city ≠ dest ∧
      lookupStr AIRPORT_COORDS iata = some co := by
  by_cases h : dest = "São Paulo"
  · refine ⟨"Rio de Janeiro", "GIG", (-22.8089, -43.2436), ?_, ?_, rfl⟩
    · simp [CITY_TO_IATA]
    · rw [h]
      decide
  · exact ⟨"São Paulo", "GRU", (-23.4356, -46.4731), by simp [CITY_TO_IATA],
      fun he => h he.symm, rfl⟩

/-- Claim C9, counterexample: the destination "Atlantis" has zero inbound
offers (the offer list is empty) and the result is not Optimal, yet the
advisory step emits no advisory at all for it — `find_nearest_airport`
returns `None` for a city absent from the coordinate table, so the claim's
"for each requested destination city with zero inbound offers" fails. -/
theorem C9_counterexample :
    getCoords "Atlantis" = none ∧
    findNearestAirport (fun _ _ => 0) "Atlantis" = none ∧
    suggestionsFor (fun _ _ => 0) ["Atlantis"] [] = [] ∧
    advisoryStep (fun _ _ => 0) ⟨"Infeasible", [], 0, 0, none⟩ ["Atlantis"] [] =
      ⟨"Infeasible", [], 0, 0, none⟩ :=
  ⟨rfl, rfl, rfl, rfl⟩

/-- Claim C9 (amended): the advisory step never changes status, itinerary
or the totals (and, being a pure function of the already-computed result,
never re-runs the solver); when the status is not Optimal it joins the
suggestions into `warning_message`; and for every requested destination
with zero inbound offers whose city has known coordinates, a suggestion
naming the distance-minimizing other city with a ground-transport estimate
is emitted.  Destinations without known coordinates are skipped. -/
theorem C9_advisory_frame_and_emission (dist : (ℚ × ℚ) → (ℚ × ℚ) → ℚ)
    (result : SolverResultA) (dests : List String) (flights : List Flight) :
    ((advisoryStep dist result dests flights).status = result.status ∧
     (advisoryStep dist result dests flights).itinerary = result.itinerary ∧
     (advisoryStep dist result dests flights).total_cost = result.total_cost ∧
     (advisoryStep dist result dests flights).total_duration =
       result.total_duration) ∧
    (result.status ≠ "Optimal" → suggestionsFor dist dests flights ≠ [] →
      (advisoryStep dist result dests flights).warning_message =
        some (String.intercalate " | " (suggestionsFor dist dests flights))) ∧
    (∀ dest ∈ dests,
      flights.any (fun f => f.destination == dest) = false →
      ∀ tc, getCoords dest = some tc →
      ∃ near d, findNearestAirport dist dest = some (some (near, d)) ∧
        advisoryString near (suggestGroundTransport near dest d) ∈
          suggestionsFor dist dests flights ∧
        ∀ city iata, (city, iata) ∈ CITY_TO_IATA → city ≠ dest →
          ∀ c, lookupStr AIRPORT_COORDS iata = some c → d ≤ dist tc c) := by
  refine ⟨?_, ?_, ?_⟩
  · unfold advisoryStep
    split_ifs with h1
    · dsimp only
      split_ifs <;> exact ⟨rfl, rfl, rfl, rfl⟩
    · exact ⟨rfl, rfl, rfl, rfl⟩
  · intro hstat hne
    unfold advisoryStep
    rw [if_pos hstat]
    dsimp only
    rw [if_pos hne]
  · intro dest hdest hnoin tc htc
    obtain ⟨n, d, hnd⟩ := nearestFold_some_of_entry dist dest tc
      CITY_TO_IATA none (exists_other_city dest)
    have hfa : findNearestAirport dist dest = some (some (n, d)) := by
      unfold findNearestAirport
      rw [htc]
      dsimp only
      rw [hnd]
    refine ⟨n, d, hfa, ?_, (nearestFold_min dist dest tc CITY_TO_IATA none
      n d hnd).2⟩
    apply List.mem_filterMap.mpr
    refine ⟨dest, hdest, ?_⟩
    simp only [hnoin, Bool.false_eq_true, if_false, hfa]

/-- Concrete instantiation of the amended claim C9: an advisory is emitted
for the known destination "Paris" when it has zero inbound offers, naming
a nearest city whose distance is minimal for the given distance
function. -/
theorem C9_advisory_frame_and_emission_witness :
    ∃ near d,
      findNearestAirport (fun _ _ => (1 : ℚ)) "Paris" = some (some (near, d)) ∧
      advisoryString near (suggestGroundTransport near "Paris" d) ∈
        suggestionsFor (fun _ _ => (1 : ℚ)) ["Paris"] [] ∧
      ∀ city iata, (city, iata) ∈ CITY_TO_IATA → city ≠ "Paris" →
        ∀ c, lookupStr AIRPORT_COORDS iata = some c → d ≤ 1 := by
  obtain ⟨near, d, h1, h2, h3⟩ :=
    (C9_advisory_frame_and_emission (fun _ _ => (1 : ℚ))
      ⟨"Infeasible", [], 0, 0, none⟩ ["Paris"] []).2.2 "Paris" (by simp) rfl
      (49.0097, 2.5479) rfl
  exact ⟨near, d, h1, h2, fun city iata hm hne c hc => h3 city iata hm hne c hc⟩

/-! ### MILP reconstruction walks (C8, C2)
The edge-selection matrix handed back by the MILP solver is a Boolean
function `x` on ordered index pairs; the reconstruction loops of
src/app/services/solver_service.py lines 170-220 and
src/optimization/solver.py lines 217-307 walk it from the start node. -/

/-- The next-hop scan `for j in range(n): if current != j and
value(x[current, j]) == 1` — the first such `j`, if any. -/
def findNext {n : ℕ} (x : Fin n → Fin n → Bool) (c : Fin n) : Option (Fin n) :=
  (List.finRange n).find? (fun j => decide (c ≠ j) && x c j)

/-- The reconstruction loop of the app `solve_itinerary` (solver_service.py
lines 174-220): follow the selected edges from the current node, emit one
leg per hop, stop when there is no next hop, when the next node was
already visited (cycle guard), or when the next node is the chosen end. -/
def walkApp {n : ℕ} (x : Fin n → Fin n → Bool) (isEnd : Fin n → Bool)
    (c : Fin n) (visited : Finset (Fin n)) : List (Fin n × Fin n) :=
  match findNext x c with
  | none => []
  | some j =>
    if j ∈ visited then [(c, j)]
    else if isEnd j then [(c, j)]
    else (c, j) :: walkApp x isEnd j (insert j visited)
termination_by (Finset.univ \ visited).card
decreasing_by
  apply Finset.card_lt_card
  rw [Finset.ssubset_iff_of_subset
    (Finset.sdiff_subset_sdiff (le_refl _) (Finset.subset_insert _ _))]
  refine ⟨j, ?_, ?_⟩
  · simp only [Finset.mem_sdiff, Finset.mem_univ, true_and]
    assumption
  · simp

/-- The reconstruction loop of the prototype `solve_itinerary`
(optimization/solver.py lines 220-307): same walk with an explicit
`steps < n + 5` safety bound instead of a visited set. -/
def walkOpt {n : ℕ} (x : Fin n → Fin n → Bool) (isEnd : Fin n → Bool) :
    ℕ → Fin n → List (Fin n × Fin n)
  | 0, _ => []
  | fuel + 1, c =>
    match findNext x c with
    | none => []
    | some j =>
      if isEnd j then [(c, j)]
      else (c, j) :: walkOpt x isEnd fuel j

/-- `total_cost_val += price` accumulation over the emitted legs. -/
def walkCost {n : ℕ} (cost : Fin n → Fin n → ℚ)
    (legs : List (Fin n × Fin n)) : ℚ :=
  legs.foldl (fun acc p => acc + cost p.1 p.2) 0

theorem foldl_add_eq_sum {α : Type} (g : α → ℚ) :
    ∀ (l : List α) (acc : ℚ),
      l.foldl (fun a p => a + g p) acc = acc + (l.map g).sum
  | [], acc => by simp
  | p :: l, acc => by
    simp only [List.foldl_cons, List.map_cons, List.sum_cons]
    rw [foldl_add_eq_sum g l (acc + g p)]
    ring

theorem walkApp_length_le {n : ℕ} (x : Fin n → Fin n → Bool)
    (isEnd : Fin n → Bool) :
    ∀ (k : ℕ) (c : Fin n) (visited : Finset (Fin n)),
      (Finset.univ \ visited).card ≤ k →
      (walkApp x isEnd c visited).length ≤ k + 1 := by
  intro k
  induction k with
  | zero =>
    intro c visited h
    rw [walkApp]
    cases hfind : findNext x c with
    | none => simp
    | some j =>
      have hj : j ∈ visited := by
        by_contra hnot
        have : j ∈ Finset.univ \ visited := by simp [hnot]
        have hpos : 0 < (Finset.univ \ visited).card :=
          Finset.card_pos.mpr ⟨j, this⟩
        omega
      simp [hj]
  | succ k ih =>
    intro c visited h
    rw [walkApp]
    cases hfind : findNext x c with
    | none => simp
    | some j =>
      dsimp only
      by_cases hj : j ∈ visited
      · simp [hj]
      · rw [if_neg hj]
        by_cases he : isEnd j = true
        · simp [hj, he]
        · rw [if_neg he]
          simp only [List.length_cons]
          have hcard : (Finset.univ \ insert j visited).card ≤ k := by
            have hlt : (Finset.univ \ insert j visited).card <
                (Finset.univ \ visited).card := by
              apply Finset.card_lt_card
              rw [Finset.ssubset_iff_of_subset
                (Finset.sdiff_subset_sdiff (le_refl _)
                  (Finset.subset_insert _ _))]
              exact ⟨j, by simp [hj], by simp⟩
            omega
          have := ih j (insert j visited) hcard
          omega

theorem walkOpt_length_le {n : ℕ} (x : Fin n → Fin n → Bool)
    (isEnd : Fin n → Bool) :
    ∀ (fuel : ℕ) (c : Fin n), (walkOpt x isEnd fuel c).length ≤ fuel
  | 0, _ => by simp [walkOpt]
  | fuel + 1, c => by
    rw [walkOpt]
    cases hfind : findNext x c with
    | none => simp
    | some j =>
      dsimp only
      by_cases he : isEnd j = true
      · simp [he]
      · rw [if_neg he]
        simp only [List.length_cons]
        have := walkOpt_length_le x isEnd fuel j
        omega

/-- Claim C8: for every solver output `x` — malformed edge selections that
encode cycles included — the app reconstruction loop emits at most `n`
legs (the visited-set cycle guard), the prototype reconstruction loop
emits at most its `n + 5` safety bound of legs, and the accumulated
`total_cost` equals the sum of the emitted legs' edge costs; in
particular both loops terminate. -/
theorem C8_reconstruction_walks_terminate (n : ℕ) (x : Fin n → Fin n → Bool)
    (isEnd : Fin n → Bool) (s : Fin n) (cost : Fin n → Fin n → ℚ) :
    (walkApp x isEnd s {s}).length ≤ n ∧
    (walkOpt x isEnd (n + 5) s).length ≤ n + 5 ∧
    walkCost cost (walkApp x isEnd s {s}) =
      ((walkApp x isEnd s {s}).map (fun p => cost p.1 p.2)).sum := by
  refine ⟨?_, walkOpt_length_le x isEnd (n + 5) s, ?_⟩
  · have hn : 1 ≤ n := s.pos
    have hcard : (Finset.univ \ ({s} : Finset (Fin n))).card ≤ n - 1 := by
      rw [Finset.card_sdiff (Finset.subset_univ _)]
      simp
    have := walkApp_length_le x isEnd (n - 1) s {s} hcard
    omega
  · rw [walkCost, foldl_add_eq_sum]
    ring

/-! ### ConstraintSolver model (C2)
The PuLP/CBC solver is external: a status of `Optimal` means it hands back
values of the binary and continuous variables satisfying every constraint
of the model built in solver_service.py lines 57-153.  The assignment is
modelled explicitly and the constraint system as a predicate on it. -/

/-- The variables of the app MILP (solver_service.py lines 59-62). -/
structure MilpAssign (n : ℕ) where
  x : Fin n → Fin n → Bool
  u : Fin n → ℚ
  is_start : Fin n → Bool
  is_end : Fin n → Bool

/-- Selected out-neighbors of `k`: the `j ≠ k` with `x[k, j] = 1`. -/
def outSet {n : ℕ} (x : Fin n → Fin n → Bool) (k : Fin n) : Finset (Fin n) :=
  Finset.univ.filter (fun j => k ≠ j ∧ x k j = true)

/-- Selected in-neighbors of `k`: the `i ≠ k` with `x[i, k] = 1`. -/
def inSet {n : ℕ} (x : Fin n → Fin n → Bool) (k : Fin n) : Finset (Fin n) :=
  Finset.univ.filter (fun i => i ≠ k ∧ x i k = true)

/-- The constraint system of the app MILP (solver_service.py lines
66-153): sentinel edges forbidden; start restricted to origin cities; end
restricted per topology, with `is_start == is_end` for round trips;
exactly one start and one end; incoming degree one (minus the start flag
for open jaw); flow conservation; and the MTZ inequalities relaxed for
edges entering the start node. -/
def FeasibleApp {n : ℕ} (roundTrip : Bool) (origin dest : Fin n → Bool)
    (cost : Fin n → Fin n → ℚ) (M : ℚ) (a : MilpAssign n) : Prop :=
  (∀ i j, i ≠ j → cost i j = M → a.x i j = false) ∧
  (∀ i, origin i = false → a.is_start i = false) ∧
  (roundTrip = true → (∀ i, origin i = false → a.is_end i = false) ∧
    (∀ i, a.is_start i = a.is_end i)) ∧
  (roundTrip = false → ∀ i, dest i = false → a.is_end i = false) ∧
  (Finset.univ.filter (fun i => a.is_start i = true)).card = 1 ∧
  (Finset.univ.filter (fun i => a.is_end i = true)).card = 1 ∧
  (∀ k, ((inSet a.x k).card : ℤ) =
    if roundTrip then 1 else 1 - ((a.is_start k).toNat : ℤ)) ∧
  (∀ k, ((outSet a.x k).card : ℤ) - ((inSet a.x k).card : ℤ) =
    ((a.is_start k).toNat : ℤ) - ((a.is_end k).toNat : ℤ)) ∧
  (∀ i j, i ≠ j →
    a.u i - a.u j + (n : ℚ) * (if a.x i j then 1 else 0) ≤
      (n : ℚ) - 1 + ((n : ℚ) + 2) * (if a.is_start j then 1 else 0))

theorem card_one_unique {α : Type} {s : Finset α} (h : s.card = 1) :
    ∃ a, a ∈ s ∧ ∀ b ∈ s, b = a := by
  obtain ⟨a, ha⟩ := Finset.card_eq_one.mp h
  refine ⟨a, by simp [ha], ?_⟩
  intro b hb
  rw [ha] at hb
  exact Finset.mem_singleton.mp hb

/-- Out-degree one pins down what the next-hop scan finds. -/
theorem findNext_of_out_one {n : ℕ} (x : Fin n → Fin n → Bool) (c : Fin n)
    (h : (outSet x c).card = 1) :
    ∃ j, findNext x c = some j ∧ c ≠ j ∧ x c j = true ∧
      ∀ j', c ≠ j' → x c j' = true → j' = j := by
  obtain ⟨j, hj, huniq⟩ := card_one_unique h
  simp only [outSet, Finset.mem_filter, Finset.mem_univ, true_and] at hj
  have huniq' : ∀ j', c ≠ j' → x c j' = true → j' = j := by
    intro j' h1 h2
    exact huniq j' (by simp [outSet, h1, h2])
  refine ⟨j, ?_, hj.1, hj.2, huniq'⟩
  cases hfind : findNext x c with
  | none =>
    exfalso
    have := List.find?_eq_none.mp hfind j (List.mem_finRange j)
    simp [hj.1, hj.2] at this
  | some j' =>
    have hsat := List.find?_some hfind
    simp only [Bool.and_eq_true, decide_eq_true_eq] at hsat
    rw [huniq' j' hsat.1 hsat.2]

/-- Out-degree zero means the next-hop scan fails. -/
theorem findNext_none_of_out_zero {n : ℕ} (x : Fin n → Fin n → Bool)
    (c : Fin n) (h : (outSet x c).card = 0) : findNext x c = none := by
  rw [Finset.card_eq_zero] at h
  apply List.find?_eq_none.mpr
  intro j _
  intro hp
  simp only [Bool.and_eq_true, decide_eq_true_eq] at hp
  have hjmem : j ∈ outSet x c := by
    simp only [outSet, Finset.mem_filter, Finset.mem_univ, true_and]
    exact hp
  rw [h] at hjmem
  exact Finset.not_mem_empty j hjmem

/-- In-degree one gives a unique predecessor. -/
theorem pred_unique_of_in_one {n : ℕ} (x : Fin n → Fin n → Bool) (k : Fin n)
    (h : (inSet x k).card = 1) :
    ∃ i, i ≠ k ∧ x i k = true ∧ ∀ i', i' ≠ k → x i' k = true → i' = i := by
  obtain ⟨i, hi, huniq⟩ := card_one_unique h
  simp only [inSet, Finset.mem_filter, Finset.mem_univ, true_and] at hi
  refine ⟨i, hi.1, hi.2, ?_⟩
  intro i' h1 h2
  exact huniq i' (by simp [inSet, h1, h2])

/-- In-degree zero means no selected edge enters `k`. -/
theorem no_pred_of_in_zero {n : ℕ} (x : Fin n → Fin n → Bool) (k : Fin n)
    (h : (inSet x k).card = 0) : ∀ i, i ≠ k → x i k = false := by
  rw [Finset.card_eq_zero] at h
  intro i hik
  by_contra hx
  rw [Bool.not_eq_false] at hx
  have : i ∈ inSet x k := by
    simp only [inSet, Finset.mem_filter, Finset.mem_univ, true_and]
    exact ⟨hik, hx⟩
  rw [h] at this
  exact Finset.not_mem_empty i this

/-- Along a selected edge whose target is not flagged as start, the MTZ
constraint of solver_service.py line 153 forces `u` to increase. -/
theorem u_step {n : ℕ} {roundTrip : Bool} {origin dest : Fin n → Bool}
    {cost : Fin n → Fin n → ℚ} {M : ℚ} {a : MilpAssign n}
    (hf : FeasibleApp roundTrip origin dest cost M a)
    {i j : Fin n} (hij : i ≠ j) (hx : a.x i j = true)
    (hj : a.is_start j = false) : a.u i + 1 ≤ a.u j := by
  have hmtz := hf.2.2.2.2.2.2.2.2 i j hij
  rw [hx, hj] at hmtz
  simp only [if_true, Bool.false_eq_true, if_false] at hmtz
  have hn : (1 : ℚ) ≤ (n : ℚ) := by
    have : (1 : ℕ) ≤ n := j.pos
    exact_mod_cast this
  linarith

/-- `u` accumulates along a chain of increasing steps. -/
theorem useq_add {n : ℕ} (u : Fin n → ℚ) (c : ℕ → Fin n) (m : ℕ)
    (hstep : ∀ t, t < m → u (c t) + 1 ≤ u (c (t + 1))) :
    ∀ k a, a + k ≤ m → u (c a) + k ≤ u (c (a + k)) := by
  intro k
  induction k with
  | zero => intro a _; simp
  | succ k ih =>
    intro a h
    have h1 := ih a (by omega)
    have h2 := hstep (a + k) (by omega)
    have : ((k : ℚ) + 1) = ((k + 1 : ℕ) : ℚ) := by push_cast; ring
    calc u (c a) + ((k + 1 : ℕ) : ℚ) = (u (c a) + k) + 1 := by push_cast; ring
    _ ≤ u (c (a + k)) + 1 := by linarith
    _ ≤ u (c (a + k + 1)) := h2
    _ = u (c (a + (k + 1))) := by ring_nf

/-- A chain of strictly `u`-increasing steps visits distinct nodes. -/
theorem useq_inj {n : ℕ} (u : Fin n → ℚ) (c : ℕ → Fin n) (m : ℕ)
    (hstep : ∀ t, t < m → u (c t) + 1 ≤ u (c (t + 1))) :
    ∀ a b, a ≤ m → b ≤ m → c a = c b → a = b := by
  have hlt : ∀ a b, a < b → b ≤ m → u (c a) < u (c b) := by
    intro a b hab hbm
    have := useq_add u c m hstep (b - a) a (by omega)
    have heq : a + (b - a) = b := by omega
    rw [heq] at this
    have hk : (1 : ℚ) ≤ ((b - a : ℕ) : ℚ) := by
      have : (1 : ℕ) ≤ b - a := by omega
      exact_mod_cast this
    linarith
  intro a b ham hbm heq
  rcases lt_trichotomy a b with h | h | h
  · exact absurd (heq ▸ hlt a b h hbm) (lt_irrefl _)
  · exact h
  · exact absurd (heq ▸ hlt b a h ham) (lt_irrefl _)

/-- No sequence of `n + 1` indices into `Fin n` is injective. -/
theorem no_inj_succ {n : ℕ} (c : ℕ → Fin n)
    (hinj : ∀ a b, a ≤ n → b ≤ n → c a = c b → a = b) : False := by
  have hfin : Function.Injective (fun t : Fin (n + 1) => c t) := by
    intro a b hab
    exact Fin.ext (hinj a b (Nat.le_of_lt_succ a.isLt)
      (Nat.le_of_lt_succ b.isLt) hab)
  have hcard := Fintype.card_le_of_injective _ hfin
  simp only [Fintype.card_fin] at hcard
  omega

/-- The next node the reconstruction moves to (junk when no edge leaves). -/
def nextD {n : ℕ} (x : Fin n → Fin n → Bool) (v : Fin n) : Fin n :=
  (findNext x v).getD v

/-- The node reached after `m` hops from the start. -/
def cSeq {n : ℕ} (x : Fin n → Fin n → Bool) (s : Fin n) (m : ℕ) : Fin n :=
  (nextD x)^[m] s

theorem cSeq_zero {n : ℕ} (x : Fin n → Fin n → Bool) (s : Fin n) :
    cSeq x s 0 = s := rfl

theorem cSeq_succ {n : ℕ} (x : Fin n → Fin n → Bool) (s : Fin n) (m : ℕ) :
    cSeq x s (m + 1) = nextD x (cSeq x s m) := by
  unfold cSeq
  rw [Function.iterate_succ_apply']

theorem walkApp_follows_aux {n : ℕ} (x : Fin n → Fin n → Bool)
    (isEnd : Fin n → Bool) (s : Fin n) (N : ℕ)
    (hnext : ∀ t, t < N → findNext x (cSeq x s t) = some (cSeq x s (t + 1)))
    (hdistinct : ∀ p q, p ≤ N - 1 → q ≤ N - 1 → cSeq x s p = cSeq x s q → p = q)
    (hstop : ∀ t, 1 ≤ t → t ≤ N - 1 → isEnd (cSeq x s t) = false)
    (hfinal : cSeq x s N = s ∨ (isEnd (cSeq x s N) = true ∧
      ∀ q, q ≤ N - 1 → cSeq x s q ≠ cSeq x s N)) :
    ∀ (k t : ℕ), t + k + 1 = N →
      walkApp x isEnd (cSeq x s t) ((Finset.range (t + 1)).image (cSeq x s)) =
        (List.range (k + 1)).map
          (fun m => (cSeq x s (t + m), cSeq x s (t + m + 1))) := by
  intro k
  induction k with
  | zero =>
    intro t ht
    rw [walkApp, hnext t (by omega)]
    dsimp only
    have htN : t + 1 = N := by omega
    rcases hfinal with hret | ⟨hend, hnew⟩
    · have hmem : cSeq x s (t + 1) ∈ (Finset.range (t + 1)).image (cSeq x s) := by
        rw [htN, hret]
        exact Finset.mem_image.mpr ⟨0, Finset.mem_range.mpr (by omega), rfl⟩
      rw [if_pos hmem, show List.range 1 = [0] from rfl]
      simp
    · have hmem : cSeq x s (t + 1) ∉ (Finset.range (t + 1)).image (cSeq x s) := by
        intro hmem
        obtain ⟨q, hq, hqc⟩ := Finset.mem_image.mp hmem
        rw [Finset.mem_range] at hq
        exact hnew q (by omega) (by rw [hqc, htN])
      rw [if_neg hmem, if_pos (htN ▸ hend), show List.range 1 = [0] from rfl]
      simp
  | succ k ih =>
    intro t ht
    rw [walkApp, hnext t (by omega)]
    dsimp only
    have hmem : cSeq x s (t + 1) ∉ (Finset.range (t + 1)).image (cSeq x s) := by
      intro hmem
      obtain ⟨q, hq, hqc⟩ := Finset.mem_image.mp hmem
      rw [Finset.mem_range] at hq
      have := hdistinct q (t + 1) (by omega) (by omega) hqc
      omega
    have hse : ¬ (isEnd (cSeq x s (t + 1)) = true) := by
      rw [hstop (t + 1) (by omega) (by omega)]
      simp
    rw [if_neg hmem, if_neg hse]
    have hins : insert (cSeq x s (t + 1))
        ((Finset.range (t + 1)).image (cSeq x s)) =
        (Finset.range (t + 2)).image (cSeq x s) := by
      have hr2 : Finset.range (t + 2) = insert (t + 1) (Finset.range (t + 1)) :=
        Finset.range_succ
      rw [hr2, Finset.image_insert]
    rw [hins, ih (t + 1) (by omega)]
    have hr : List.range (k + 1 + 1) = 0 :: (List.range (k + 1)).map Nat.succ :=
      List.range_succ_eq_map (k + 1)
    rw [hr]
    simp only [List.map_cons, List.map_map, Nat.add_zero]
    congr 1
    apply List.map_congr_left
    intro m _
    simp only [Function.comp_apply, Nat.succ_eq_add_one]
    have h1 : t + 1 + m = t + (m + 1) := by omega
    rw [h1]

/-- When the selected edges trace the iterate sequence `s, c 1, ..., c N`
with distinct intermediate nodes and a final node that either returns to
`s` or is the flagged end, the app reconstruction walk emits exactly those
`N` legs. -/
theorem walkApp_follows {n : ℕ} (x : Fin n → Fin n → Bool)
    (isEnd : Fin n → Bool) (s : Fin n) (N : ℕ) (hN : 1 ≤ N)
    (hnext : ∀ t, t < N → findNext x (cSeq x s t) = some (cSeq x s (t + 1)))
    (hdistinct : ∀ p q, p ≤ N - 1 → q ≤ N - 1 → cSeq x s p = cSeq x s q → p = q)
    (hstop : ∀ t, 1 ≤ t → t ≤ N - 1 → isEnd (cSeq x s t) = false)
    (hfinal : cSeq x s N = s ∨ (isEnd (cSeq x s N) = true ∧
      ∀ q, q ≤ N - 1 → cSeq x s q ≠ cSeq x s N)) :
    walkApp x isEnd s {s} =
      (List.range N).map (fun m => (cSeq x s m, cSeq x s (m + 1))) := by
  have haux := walkApp_follows_aux x isEnd s N hnext hdistinct hstop hfinal
    (N - 1) 0 (by omega)
  have h1 : (Finset.range 1).image (cSeq x s) = ({s} : Finset (Fin n)) := by
    rw [Finset.range_one, Finset.image_singleton, cSeq_zero]
  rw [h1] at haux
  rw [cSeq_zero] at haux
  have h2 : N - 1 + 1 = N := by omega
  rw [h2] at haux
  rw [haux]
  apply List.map_congr_left
  intro m _
  simp

/-- Round-trip feasibility forces in-degree and out-degree one at every
node. -/
theorem round_structure {n : ℕ} {origin dest : Fin n → Bool}
    {cost : Fin n → Fin n → ℚ} {M : ℚ} {a : MilpAssign n}
    (hf : FeasibleApp true origin dest cost M a) :
    (∀ k, (inSet a.x k).card = 1) ∧ (∀ k, (outSet a.x k).card = 1) := by
  obtain ⟨-, -, hrt, -, -, -, hin, hflow, -⟩ := hf
  have hse := (hrt rfl).2
  have hin' : ∀ k, ((inSet a.x k).card : ℤ) = 1 := by
    intro k
    have := hin k
    simpa using this
  refine ⟨fun k => by exact_mod_cast hin' k, fun k => ?_⟩
  have hfk := hflow k
  rw [hse k, hin' k] at hfk
  have : ((outSet a.x k).card : ℤ) = 1 := by omega
  exact_mod_cast this

/-- Open-jaw feasibility: in-degree `1 - is_start`, out-degree
`1 - is_end`. -/
theorem open_structure {n : ℕ} {origin dest : Fin n → Bool}
    {cost : Fin n → Fin n → ℚ} {M : ℚ} {a : MilpAssign n}
    (hf : FeasibleApp false origin dest cost M a) :
    (∀ k, ((inSet a.x k).card : ℤ) = 1 - ((a.is_start k).toNat : ℤ)) ∧
    (∀ k, ((outSet a.x k).card : ℤ) = 1 - ((a.is_end k).toNat : ℤ)) := by
  obtain ⟨-, -, -, -, -, -, hin, hflow, -⟩ := hf
  have hin' : ∀ k, ((inSet a.x k).card : ℤ) = 1 - ((a.is_start k).toNat : ℤ) := by
    intro k
    have := hin k
    simpa using this
  refine ⟨hin', fun k => ?_⟩
  have hfk := hflow k
  rw [hin' k] at hfk
  omega

theorem start_unique {n : ℕ} {roundTrip : Bool} {origin dest : Fin n → Bool}
    {cost : Fin n → Fin n → ℚ} {M : ℚ} {a : MilpAssign n}
    (hf : FeasibleApp roundTrip origin dest cost M a) :
    ∃ s, a.is_start s = true ∧ ∀ t, a.is_start t = true → t = s := by
  obtain ⟨m, hm, hu⟩ := card_one_unique hf.2.2.2.2.1
  simp only [Finset.mem_filter, Finset.mem_univ, true_and] at hm
  exact ⟨m, hm, fun t ht => hu t (by simp [ht])⟩

theorem end_unique {n : ℕ} {roundTrip : Bool} {origin dest : Fin n → Bool}
    {cost : Fin n → Fin n → ℚ} {M : ℚ} {a : MilpAssign n}
    (hf : FeasibleApp roundTrip origin dest cost M a) :
    ∃ e, a.is_end e = true ∧ ∀ t, a.is_end t = true → t = e := by
  obtain ⟨m, hm, hu⟩ := card_one_unique hf.2.2.2.2.2.1
  simp only [Finset.mem_filter, Finset.mem_univ, true_and] at hm
  exact ⟨m, hm, fun t ht => hu t (by simp [ht])⟩

/-- The full structure of a feasible round-trip assignment: the walk from
the start follows the iterate sequence, which is a Hamiltonian cycle —
it returns to the start after exactly `n` distinct hops and passes every
city. -/
theorem round_master {n : ℕ} {origin dest : Fin n → Bool}
    {cost : Fin n → Fin n → ℚ} {M : ℚ} {a : MilpAssign n}
    (hf : FeasibleApp true origin dest cost M a)
    (s : Fin n) (hs : a.is_start s = true)
    (hsu : ∀ t, a.is_start t = true → t = s) :
    walkApp a.x a.is_end s {s} =
      (List.range n).map (fun m => (cSeq a.x s m, cSeq a.x s (m + 1))) ∧
    cSeq a.x s n = s ∧
    (∀ p q, p ≤ n - 1 → q ≤ n - 1 → cSeq a.x s p = cSeq a.x s q → p = q) ∧
    (∀ v : Fin n, ∃ m, m < n ∧ cSeq a.x s m = v) := by
  obtain ⟨hin1, hout1⟩ := round_structure hf
  have hstep : ∀ k : Fin n, findNext a.x k = some (nextD a.x k) ∧
      k ≠ nextD a.x k ∧ a.x k (nextD a.x k) = true ∧
      ∀ j', k ≠ j' → a.x k j' = true → j' = nextD a.x k := by
    intro k
    obtain ⟨j, hj1, hj2, hj3, hj4⟩ := findNext_of_out_one a.x k (hout1 k)
    have hjd : nextD a.x k = j := by rw [nextD, hj1]; rfl
    rw [hjd]
    exact ⟨hj1, hj2, hj3, hj4⟩
  have hcnext : ∀ (w : Fin n) (t : ℕ),
      findNext a.x (cSeq a.x w t) = some (cSeq a.x w (t + 1)) := by
    intro w t
    rw [cSeq_succ]
    exact (hstep _).1
  have hedge : ∀ (w : Fin n) (t : ℕ), cSeq a.x w t ≠ cSeq a.x w (t + 1) ∧
      a.x (cSeq a.x w t) (cSeq a.x w (t + 1)) = true := by
    intro w t
    rw [cSeq_succ]
    exact ⟨(hstep _).2.1, (hstep _).2.2.1⟩
  have hustep : ∀ (w : Fin n) (t : ℕ), cSeq a.x w (t + 1) ≠ s →
      a.u (cSeq a.x w t) + 1 ≤ a.u (cSeq a.x w (t + 1)) := by
    intro w t hne
    have hnostart : a.is_start (cSeq a.x w (t + 1)) = false := by
      cases hb : a.is_start (cSeq a.x w (t + 1)) with
      | true => exact absurd (hsu _ hb) hne
      | false => rfl
    exact u_step hf (hedge w t).1 (hedge w t).2 hnostart
  have hreturn : ∃ N, (1 ≤ N ∧ cSeq a.x s N = s) ∧ N ≤ n := by
    by_contra hno
    push_neg at hno
    apply no_inj_succ (cSeq a.x s)
    apply useq_inj a.u (cSeq a.x s) n
    intro t ht
    refine hustep s t (fun hc => ?_)
    have := hno (t + 1) ⟨by omega, hc⟩
    omega
  obtain ⟨N0, hN0, hN0n⟩ := hreturn
  have hPex : ∃ N, 1 ≤ N ∧ cSeq a.x s N = s := ⟨N0, hN0⟩
  set N := Nat.find hPex with hNdef
  have hPN : 1 ≤ N ∧ cSeq a.x s N = s := Nat.find_spec hPex
  have hNle : N ≤ n := le_trans (Nat.find_min' hPex hN0) hN0n
  have hnot_s : ∀ t, 1 ≤ t → t < N → cSeq a.x s t ≠ s := by
    intro t h1 h2 hc
    exact Nat.find_min hPex h2 ⟨h1, hc⟩
  have hdistinct : ∀ p q, p ≤ N - 1 → q ≤ N - 1 →
      cSeq a.x s p = cSeq a.x s q → p = q := by
    intro p q hp hq
    apply useq_inj a.u (cSeq a.x s) (N - 1) _ p q hp hq
    intro t ht
    exact hustep s t (hnot_s (t + 1) (by omega) (by omega))
  have hcover : ∀ v : Fin n, ∃ m, m < N ∧ cSeq a.x s m = v := by
    intro v
    by_contra hnc
    push_neg at hnc
    have horb : ∀ t, ∀ m, m < N → cSeq a.x v t ≠ cSeq a.x s m := by
      intro t
      induction t with
      | zero =>
        intro m hm h
        rw [cSeq_zero] at h
        exact hnc m hm h.symm
      | succ t ih =>
        intro m hm heq
        rcases Nat.eq_zero_or_pos m with rfl | hmpos
        · rw [cSeq_zero] at heq
          obtain ⟨i, hi1, hi2, hiu⟩ := pred_unique_of_in_one a.x s (hin1 s)
          have hv1 : cSeq a.x v t ≠ s := by
            have := ih 0 (by omega)
            rw [cSeq_zero] at this
            exact this
          have hvx : a.x (cSeq a.x v t) s = true := by
            have := (hedge v t).2
            rw [heq] at this
            exact this
          have hvi : cSeq a.x v t = i := hiu _ hv1 hvx
          have hsx : a.x (cSeq a.x s (N - 1)) s = true := by
            have := (hedge s (N - 1)).2
            rw [show N - 1 + 1 = N from by omega, hPN.2] at this
            exact this
          have hsne : cSeq a.x s (N - 1) ≠ s := by
            rcases Nat.eq_zero_or_pos (N - 1) with h0 | hpos
            · exfalso
              have hN1 : N = 1 := by omega
              have h1 : cSeq a.x s 1 = s := by rw [← hN1]; exact hPN.2
              have h2 : s ≠ cSeq a.x s (0 + 1) := by
                have := (hedge s 0).1
                rwa [cSeq_zero] at this
              exact h2 (by rw [show (0 : ℕ) + 1 = 1 from rfl, h1])
            · exact hnot_s (N - 1) (by omega) (by omega)
          have hsi : cSeq a.x s (N - 1) = i := hiu _ hsne hsx
          exact ih (N - 1) (by omega) (hvi.trans hsi.symm) |>.elim
        · obtain ⟨i, hi1, hi2, hiu⟩ :=
            pred_unique_of_in_one a.x (cSeq a.x s m) (hin1 _)
          have hv1 : cSeq a.x v t ≠ cSeq a.x s m := ih m hm
          have hvx : a.x (cSeq a.x v t) (cSeq a.x s m) = true := by
            have := (hedge v t).2
            rw [heq] at this
            exact this
          have hvi : cSeq a.x v t = i := hiu _ hv1 hvx
          have hsm : cSeq a.x s (m - 1 + 1) = cSeq a.x s m := by
            rw [show m - 1 + 1 = m from by omega]
          have hsx : a.x (cSeq a.x s (m - 1)) (cSeq a.x s m) = true := by
            have := (hedge s (m - 1)).2
            rw [hsm] at this
            exact this
          have hsne : cSeq a.x s (m - 1) ≠ cSeq a.x s m := by
            have := (hedge s (m - 1)).1
            rw [hsm] at this
            exact this
          have hsi : cSeq a.x s (m - 1) = i := hiu _ hsne hsx
          exact ih (m - 1) (by omega) (hvi.trans hsi.symm)
    apply no_inj_succ (cSeq a.x v)
    apply useq_inj a.u (cSeq a.x v) n
    intro t ht
    refine hustep v t (fun hc => ?_)
    have := horb (t + 1) 0 (by omega)
    rw [cSeq_zero] at this
    exact this hc
  have hNn : N = n := by
    have hsub : (Finset.univ : Finset (Fin n)) ⊆
        (Finset.range N).image (cSeq a.x s) := by
      intro v _
      obtain ⟨m, hm, hc⟩ := hcover v
      exact Finset.mem_image.mpr ⟨m, Finset.mem_range.mpr hm, hc⟩
    have hle := Finset.card_le_card hsub
    rw [Finset.card_univ, Fintype.card_fin] at hle
    have him : ((Finset.range N).image (cSeq a.x s)).card ≤ N :=
      le_trans Finset.card_image_le (le_of_eq (Finset.card_range N))
    omega
  have hiend : ∀ t : Fin n, a.is_end t = a.is_start t := by
    intro t
    exact ((hf.2.2.1 rfl).2 t).symm
  have hwalk := walkApp_follows a.x a.is_end s N hPN.1
    (fun t _ => hcnext s t) hdistinct
    (fun t h1 h2 => by
      rw [hiend]
      cases hb : a.is_start (cSeq a.x s t) with
      | true => exact absurd (hsu _ hb) (hnot_s t h1 (by omega))
      | false => rfl)
    (Or.inl hPN.2)
  rw [hNn] at hwalk hPN hdistinct hcover
  exact ⟨hwalk, hPN.2, hdistinct, hcover⟩

/-- The full structure of a feasible open-jaw assignment with distinct
start and end: the walk traces a Hamiltonian path of `n - 1` legs from
the start to the end. -/
theorem open_master {n : ℕ} {origin dest : Fin n → Bool}
    {cost : Fin n → Fin n → ℚ} {M : ℚ} {a : MilpAssign n}
    (hf : FeasibleApp false origin dest cost M a)
    (s e : Fin n) (hs : a.is_start s = true)
    (hsu : ∀ t, a.is_start t = true → t = s)
    (he : a.is_end e = true) (heu : ∀ t, a.is_end t = true → t = e)
    (hne : s ≠ e) :
    walkApp a.x a.is_end s {s} =
      (List.range (n - 1)).map (fun m => (cSeq a.x s m, cSeq a.x s (m + 1))) ∧
    cSeq a.x s (n - 1) = e ∧
    (∀ p q, p ≤ n - 1 → q ≤ n - 1 → cSeq a.x s p = cSeq a.x s q → p = q) ∧
    (∀ v : Fin n, ∃ m, m ≤ n - 1 ∧ cSeq a.x s m = v) := by
  obtain ⟨hin, hout⟩ := open_structure hf
  have hstartv : ∀ v : Fin n, v ≠ s → a.is_start v = false := by
    intro v hv
    cases hb : a.is_start v with
    | true => exact absurd (hsu v hb) hv
    | false => rfl
  have hendv : ∀ v : Fin n, v ≠ e → a.is_end v = false := by
    intro v hv
    cases hb : a.is_end v with
    | true => exact absurd (heu v hb) hv
    | false => rfl
  have hin1 : ∀ k : Fin n, k ≠ s → (inSet a.x k).card = 1 := by
    intro k hk
    have h := hin k
    rw [hstartv k hk] at h
    simp only [Bool.toNat_false, Nat.cast_zero, sub_zero] at h
    exact_mod_cast h
  have hin0 : (inSet a.x s).card = 0 := by
    have h := hin s
    rw [hs] at h
    simp only [Bool.toNat_true, Nat.cast_one, sub_self] at h
    exact_mod_cast h
  have hout1 : ∀ k : Fin n, k ≠ e → (outSet a.x k).card = 1 := by
    intro k hk
    have h := hout k
    rw [hendv k hk] at h
    simp only [Bool.toNat_false, Nat.cast_zero, sub_zero] at h
    exact_mod_cast h
  have hnos : ∀ i, i ≠ s → a.x i s = false := no_pred_of_in_zero a.x s hin0
  have hstep : ∀ k : Fin n, k ≠ e → findNext a.x k = some (nextD a.x k) ∧
      k ≠ nextD a.x k ∧ a.x k (nextD a.x k) = true ∧
      ∀ j', k ≠ j' → a.x k j' = true → j' = nextD a.x k := by
    intro k hk
    obtain ⟨j, hj1, hj2, hj3, hj4⟩ := findNext_of_out_one a.x k (hout1 k hk)
    have hjd : nextD a.x k = j := by rw [nextD, hj1]; rfl
    rw [hjd]
    exact ⟨hj1, hj2, hj3, hj4⟩
  have htarget : ∀ i j : Fin n, i ≠ j → a.x i j = true → j ≠ s := by
    intro i j hij hx hj
    subst hj
    have h := hnos i hij
    rw [hx] at h
    exact absurd h (by decide)
  have hustep : ∀ (w : Fin n) (t : ℕ), cSeq a.x w t ≠ e →
      a.u (cSeq a.x w t) + 1 ≤ a.u (cSeq a.x w (t + 1)) := by
    intro w t hte
    have hn' := hstep _ hte
    have hE1 : cSeq a.x w t ≠ cSeq a.x w (t + 1) := by
      rw [cSeq_succ]; exact hn'.2.1
    have hE2 : a.x (cSeq a.x w t) (cSeq a.x w (t + 1)) = true := by
      rw [cSeq_succ]; exact hn'.2.2.1
    exact u_step hf hE1 hE2 (hstartv _ (htarget _ _ hE1 hE2))
  have hreach : ∃ N, cSeq a.x s N = e ∧ N ≤ n := by
    by_contra hno
    push_neg at hno
    apply no_inj_succ (cSeq a.x s)
    apply useq_inj a.u (cSeq a.x s) n
    intro t ht
    refine hustep s t (fun hc => ?_)
    have := hno t hc
    omega
  obtain ⟨N0, hN0, hN0n⟩ := hreach
  have hPex : ∃ N, cSeq a.x s N = e := ⟨N0, hN0⟩
  set N := Nat.find hPex with hNdef
  have hPN : cSeq a.x s N = e := Nat.find_spec hPex
  have hNle : N ≤ n := le_trans (Nat.find_min' hPex hN0) hN0n
  have hN1 : 1 ≤ N := by
    rcases Nat.eq_zero_or_pos N with h0 | h
    · exfalso
      rw [h0, cSeq_zero] at hPN
      exact hne hPN
    · exact h
  have hnot_e : ∀ t, t < N → cSeq a.x s t ≠ e := by
    intro t ht hc
    exact Nat.find_min hPex ht hc
  have hdistN : ∀ p q, p ≤ N - 1 → q ≤ N - 1 →
      cSeq a.x s p = cSeq a.x s q → p = q := by
    intro p q hp hq
    apply useq_inj a.u (cSeq a.x s) (N - 1) _ p q hp hq
    intro t ht
    exact hustep s t (hnot_e t (by omega))
  have hfresh : ∀ q, q ≤ N - 1 → cSeq a.x s q ≠ cSeq a.x s N := by
    intro q hq
    rw [hPN]
    exact hnot_e q (by omega)
  have hdist : ∀ p q, p ≤ N → q ≤ N → cSeq a.x s p = cSeq a.x s q → p = q := by
    intro p q hp hq hc
    rcases Nat.lt_or_ge p N with hpN | hpN
    · rcases Nat.lt_or_ge q N with hqN | hqN
      · exact hdistN p q (by omega) (by omega) hc
      · exfalso
        have hqN' : q = N := by omega
        rw [hqN'] at hc
        exact hfresh p (by omega) hc
    · have hpN' : p = N := by omega
      rcases Nat.lt_or_ge q N with hqN | hqN
      · exfalso
        rw [hpN'] at hc
        exact hfresh q (by omega) hc.symm
      · omega
  have hcover : ∀ v : Fin n, ∃ m, m ≤ N ∧ cSeq a.x s m = v := by
    intro v
    by_contra hnc
    push_neg at hnc
    have horb : ∀ t, ∀ m, m ≤ N → cSeq a.x v t ≠ cSeq a.x s m := by
      intro t
      induction t with
      | zero =>
        intro m hm h
        rw [cSeq_zero] at h
        exact hnc m hm h.symm
      | succ t ih =>
        intro m hm heq
        have hvte : cSeq a.x v t ≠ e := by
          rw [← hPN]
          exact ih N (le_refl N)
        have hn' := hstep _ hvte
        have hE1 : cSeq a.x v t ≠ cSeq a.x v (t + 1) := by
          rw [cSeq_succ]; exact hn'.2.1
        have hE2 : a.x (cSeq a.x v t) (cSeq a.x v (t + 1)) = true := by
          rw [cSeq_succ]; exact hn'.2.2.1
        rcases Nat.eq_zero_or_pos m with rfl | hmpos
        · rw [cSeq_zero] at heq
          exact htarget _ _ hE1 hE2 heq
        · have hm1e : cSeq a.x s (m - 1) ≠ e := hnot_e (m - 1) (by omega)
          have hn2 := hstep _ hm1e
          have hF1 : cSeq a.x s (m - 1) ≠ cSeq a.x s (m - 1 + 1) := by
            rw [cSeq_succ]; exact hn2.2.1
          have hF2 : a.x (cSeq a.x s (m - 1)) (cSeq a.x s (m - 1 + 1)) = true := by
            rw [cSeq_succ]; exact hn2.2.2.1
          rw [show m - 1 + 1 = m from by omega] at hF1 hF2
          have hsm_ne : cSeq a.x s m ≠ s := htarget _ _ hF1 hF2
          obtain ⟨i, hi1, hi2, hiu⟩ :=
            pred_unique_of_in_one a.x (cSeq a.x s m) (hin1 _ hsm_ne)
          have hv1 : cSeq a.x v t ≠ cSeq a.x s m := ih m hm
          have hvx : a.x (cSeq a.x v t) (cSeq a.x s m) = true := by
            rw [heq] at hE2
            exact hE2
          have hvi : cSeq a.x v t = i := hiu _ hv1 hvx
          have hsi : cSeq a.x s (m - 1) = i := hiu _ hF1 hF2
          exact ih (m - 1) (by omega) (hvi.trans hsi.symm)
    apply no_inj_succ (cSeq a.x v)
    apply useq_inj a.u (cSeq a.x v) n
    intro t ht
    refine hustep v t ?_
    rw [← hPN]
    exact horb t N (le_refl N)
  have hNn : N = n - 1 := by
    have hsub : (Finset.univ : Finset (Fin n)) ⊆
        (Finset.range (N + 1)).image (cSeq a.x s) := by
      intro v _
      obtain ⟨m, hm, hc⟩ := hcover v
      exact Finset.mem_image.mpr ⟨m, Finset.mem_range.mpr (by omega), hc⟩
    have hle := Finset.card_le_card hsub
    rw [Finset.card_univ, Fintype.card_fin] at hle
    have him : ((Finset.range (N + 1)).image (cSeq a.x s)).card ≤ N + 1 :=
      le_trans Finset.card_image_le (le_of_eq (Finset.card_range (N + 1)))
    have him2 : ((Finset.range (N + 1)).image (cSeq a.x s)).card ≤ n := by
      have := Finset.card_le_card
        (Finset.subset_univ ((Finset.range (N + 1)).image (cSeq a.x s)))
      rw [Finset.card_univ, Fintype.card_fin] at this
      exact this
    -- n ≤ N + 1 from hle/him; N + 1 ≤ n from injectivity
    have hinj : ((Finset.range (N + 1)).image (cSeq a.x s)).card = N + 1 := by
      rw [Finset.card_image_of_injOn, Finset.card_range]
      intro p hp q hq hc
      rw [Finset.coe_range, Set.mem_Iio] at hp hq
      exact hdist p q (by omega) (by omega) hc
    omega
  have hwalk := walkApp_follows a.x a.is_end s N hN1
    (fun t ht => by
      rw [cSeq_succ]
      exact (hstep _ (hnot_e t ht)).1)
    hdistN
    (fun t h1 h2 => hendv _ (hnot_e t (by omega)))
    (Or.inr ⟨by rw [hPN]; exact he, hfresh⟩)
  rw [hNn] at hwalk hPN hdist hcover
  exact ⟨hwalk, hPN, hdist, hcover⟩

/-- A feasible open-jaw assignment whose unique start coincides with its
unique end only exists for a single-city model, and its reconstruction
walk is empty. -/
theorem open_degenerate {n : ℕ} {origin dest : Fin n → Bool}
    {cost : Fin n → Fin n → ℚ} {M : ℚ} {a : MilpAssign n}
    (hf : FeasibleApp false origin dest cost M a)
    (s : Fin n) (hs : a.is_start s = true)
    (hsu : ∀ t, a.is_start t = true → t = s)
    (hse : a.is_end s = true)
    (heu : ∀ t, a.is_end t = true → t = s) :
    n = 1 ∧ walkApp a.x a.is_end s {s} = [] := by
  obtain ⟨hin, hout⟩ := open_structure hf
  have hout0 : (outSet a.x s).card = 0 := by
    have h := hout s
    rw [hse] at h
    simp only [Bool.toNat_true, Nat.cast_one, sub_self] at h
    exact_mod_cast h
  have hin0 : (inSet a.x s).card = 0 := by
    have h := hin s
    rw [hs] at h
    simp only [Bool.toNat_true, Nat.cast_one, sub_self] at h
    exact_mod_cast h
  have hwalk : walkApp a.x a.is_end s {s} = [] := by
    rw [walkApp, findNext_none_of_out_zero a.x s hout0]
  refine ⟨?_, hwalk⟩
  by_contra hn1
  have hn2 : 2 ≤ n := by
    have := s.pos
    omega
  obtain ⟨v, hv⟩ := Fintype.exists_ne_of_one_lt_card
    (by rw [Fintype.card_fin]; omega) s
  have hstartv : ∀ w : Fin n, w ≠ s → a.is_start w = false := by
    intro w hw
    cases hb : a.is_start w with
    | true => exact absurd (hsu w hb) hw
    | false => rfl
  have hendv : ∀ w : Fin n, w ≠ s → a.is_end w = false := by
    intro w hw
    cases hb : a.is_end w with
    | true => exact absurd (heu w hb) hw
    | false => rfl
  have hout1 : ∀ k : Fin n, k ≠ s → (outSet a.x k).card = 1 := by
    intro k hk
    have h := hout k
    rw [hendv k hk] at h
    simp only [Bool.toNat_false, Nat.cast_zero, sub_zero] at h
    exact_mod_cast h
  have hnos : ∀ i, i ≠ s → a.x i s = false := no_pred_of_in_zero a.x s hin0
  have htarget : ∀ i j : Fin n, i ≠ j → a.x i j = true → j ≠ s := by
    intro i j hij hx hj
    subst hj
    have h := hnos i hij
    rw [hx] at h
    exact absurd h (by decide)
  have horb : ∀ t, cSeq a.x v t ≠ s := by
    intro t
    induction t with
    | zero => rw [cSeq_zero]; exact hv
    | succ t ih =>
      obtain ⟨j, hj1, hj2, hj3, hj4⟩ := findNext_of_out_one a.x _ (hout1 _ ih)
      have hjd : cSeq a.x v (t + 1) = j := by
        rw [cSeq_succ, nextD, hj1]
        rfl
      rw [hjd]
      exact htarget _ _ hj2 hj3
  apply no_inj_succ (cSeq a.x v)
  apply useq_inj a.u (cSeq a.x v) n
  intro t ht
  obtain ⟨j, hj1, hj2, hj3, hj4⟩ := findNext_of_out_one a.x _ (hout1 _ (horb t))
  have hjd : cSeq a.x v (t + 1) = j := by
    rw [cSeq_succ, nextD, hj1]
    rfl
  have hE1 : cSeq a.x v t ≠ cSeq a.x v (t + 1) := by rw [hjd]; exact hj2
  have hE2 : a.x (cSeq a.x v t) (cSeq a.x v (t + 1)) = true := by
    rw [hjd]; exact hj3
  exact u_step hf hE1 hE2 (hstartv _ (htarget _ _ hE1 hE2))

theorem range_map_count_one {n : ℕ} (c : ℕ → Fin n) (N : ℕ) (hN : 1 ≤ N)
    (hdist : ∀ p q, p ≤ N - 1 → q ≤ N - 1 → c p = c q → p = q)
    (v : Fin n) (hv : ∃ m, m ≤ N - 1 ∧ c m = v) :
    ((List.range N).map c).count v = 1 := by
  have hnodup : ((List.range N).map c).Nodup := by
    refine List.Nodup.map_on ?_ (List.nodup_range N)
    intro p hp q hq hc
    rw [List.mem_range] at hp hq
    exact hdist p q (by omega) (by omega) hc
  obtain ⟨m, hm, hcm⟩ := hv
  exact List.count_eq_one_of_mem hnodup
    (List.mem_map.mpr ⟨m, List.mem_range.mpr (by omega), hcm⟩)

theorem head_map_range {α : Type} (f : ℕ → α) (k : ℕ) :
    ((List.range (k + 1)).map f).head? = some (f 0) := by
  rw [List.range_succ_eq_map]
  simp

theorem getLast_map_range {α : Type} (f : ℕ → α) (k : ℕ) :
    ((List.range (k + 1)).map f).getLast? = some (f k) := by
  rw [List.range_succ, List.map_append]
  simp

theorem range_map_shift {n : ℕ} (c : ℕ → Fin n) (hn : 1 ≤ n) :
    (List.range n).map (fun m => c m) =
      c 0 :: (List.range (n - 1)).map (fun m => c (m + 1)) := by
  obtain ⟨k, rfl⟩ : ∃ k, n = k + 1 := ⟨n - 1, by omega⟩
  rw [Nat.add_sub_cancel, List.range_succ_eq_map, List.map_cons, List.map_map]
  congr 1

/-- Claim C2: when the app MILP reports `Optimal`, CBC hands back an
assignment satisfying every constraint of the model (`FeasibleApp`); for
any such assignment, the reconstruction walk started at the flagged start
city yields a well-formed itinerary. The start is unique and lies in
`origin_cities`; the accumulated `total_cost` equals the sum of the legs'
edge costs exactly; for a round trip the visited cities (the legs'
origins) cover every city exactly once and the walk returns to the start;
for an open jaw with distinct endpoints the visit list (start plus the
legs' destinations) covers every city exactly once and the walk ends at
the flagged end, which lies in `destination_cities`; a degenerate open
jaw (start = end) forces a one-city model with an empty walk. -/
theorem C2_optimal_reconstruction_wellformed {n : ℕ} (roundTrip : Bool)
    (origin dest : Fin n → Bool) (cost : Fin n → Fin n → ℚ) (M : ℚ)
    (a : MilpAssign n) (hf : FeasibleApp roundTrip origin dest cost M a)
    (s : Fin n) (hs : a.is_start s = true) :
    (∀ t, a.is_start t = true ↔ t = s) ∧
    origin s = true ∧
    walkCost cost (walkApp a.x a.is_end s {s}) =
      ((walkApp a.x a.is_end s {s}).map (fun p => cost p.1 p.2)).sum ∧
    (roundTrip = true →
      (∀ v : Fin n, ((walkApp a.x a.is_end s {s}).map Prod.fst).count v = 1) ∧
      (walkApp a.x a.is_end s {s}).head?.map Prod.fst = some s ∧
      (walkApp a.x a.is_end s {s}).getLast?.map Prod.snd = some s) ∧
    (roundTrip = false → ∀ e, a.is_end e = true →
      dest e = true ∧
      (s ≠ e →
        (∀ v : Fin n,
          (s :: (walkApp a.x a.is_end s {s}).map Prod.snd).count v = 1) ∧
        (walkApp a.x a.is_end s {s}).getLast?.map Prod.snd = some e) ∧
      (s = e → n = 1 ∧ walkApp a.x a.is_end s {s} = [])) := by
  obtain ⟨s0, hs0, hsu0⟩ := start_unique hf
  have hsu : ∀ t, a.is_start t = true → t = s :=
    fun t ht => (hsu0 t ht).trans (hsu0 s hs).symm
  have hiff : ∀ t, a.is_start t = true ↔ t = s :=
    fun t => ⟨hsu t, fun h => h ▸ hs⟩
  have horig : origin s = true := by
    cases hb : origin s with
    | true => rfl
    | false =>
      have h := hf.2.1 s hb
      rw [hs] at h
      exact absurd h (by decide)
  refine ⟨hiff, horig, by rw [walkCost, foldl_add_eq_sum]; ring, ?_, ?_⟩
  · intro hrt
    subst hrt
    obtain ⟨hwalk, hret, hdist, hcover⟩ := round_master hf s hs hsu
    have hn1 : 1 ≤ n := s.pos
    refine ⟨?_, ?_, ?_⟩
    · intro v
      have hmapfst : (walkApp a.x a.is_end s {s}).map Prod.fst =
          (List.range n).map (fun m => cSeq a.x s m) := by
        rw [hwalk, List.map_map]
        apply List.map_congr_left
        intro m _
        rfl
      rw [hmapfst]
      refine range_map_count_one _ n hn1
        (fun p q hp hq => hdist p q hp hq) v ?_
      obtain ⟨m, hm, hcm⟩ := hcover v
      exact ⟨m, by omega, hcm⟩
    · rw [hwalk]
      obtain ⟨k, rfl⟩ : ∃ k, n = k + 1 := ⟨n - 1, by omega⟩
      rw [head_map_range]
      simp [cSeq_zero]
    · rw [hwalk]
      obtain ⟨k, rfl⟩ : ∃ k, n = k + 1 := ⟨n - 1, by omega⟩
      rw [getLast_map_range]
      simp [hret]
  · intro hrt e he
    subst hrt
    obtain ⟨e0, he0, heu0⟩ := end_unique hf
    have heu : ∀ t, a.is_end t = true → t = e :=
      fun t ht => (heu0 t ht).trans (heu0 e he).symm
    have hdest : dest e = true := by
      cases hb : dest e with
      | true => rfl
      | false =>
        have h := hf.2.2.2.1 rfl e hb
        rw [he] at h
        exact absurd h (by decide)
    refine ⟨hdest, ?_, ?_⟩
    · intro hne
      obtain ⟨hwalk, hend, hdist, hcover⟩ := open_master hf s e hs hsu he heu hne
      have hn2 : 2 ≤ n := by
        by_contra hcon
        have hn : n = 1 := by
          have := s.pos
          omega
        subst hn
        exact hne (Subsingleton.elim s e)
      refine ⟨?_, ?_⟩
      · intro v
        have hlist : s :: (walkApp a.x a.is_end s {s}).map Prod.snd =
            (List.range n).map (fun m => cSeq a.x s m) := by
          rw [hwalk, List.map_map,
            range_map_shift (fun m => cSeq a.x s m) (by omega)]
          rw [cSeq_zero]
          congr 1
        rw [hlist]
        refine range_map_count_one _ n (by omega) ?_ v ?_
        · intro p q hp hq
          exact hdist p q hp hq
        · obtain ⟨m, hm, hcm⟩ := hcover v
          exact ⟨m, hm, hcm⟩
      · rw [hwalk]
        obtain ⟨k, hk⟩ : ∃ k, n - 1 = k + 1 := ⟨n - 2, by omega⟩
        rw [hk] at hend
        rw [hk, getLast_map_range]
        simp [hend]
    · intro hse
      exact open_degenerate hf s hs hsu (by rw [hse]; exact he)
        (fun t ht => (heu t ht).trans hse.symm)

/-- Concrete two-city round-trip assignment used to instantiate C2. -/
def xW : Fin 2 → Fin 2 → Bool := fun i j => decide (i ≠ j)

def uW : Fin 2 → ℚ := fun i => if i = 0 then 0 else 1

def flagW : Fin 2 → Bool := fun i => decide (i = 0)

def aW : MilpAssign 2 := ⟨xW, uW, flagW, flagW⟩

theorem feasW : FeasibleApp true (fun _ => true) (fun _ => true)
    (fun _ _ => (0 : ℚ)) 1 aW := by
  refine ⟨?_, ?_, ?_, ?_, ?_, ?_, ?_, ?_, ?_⟩
  · intro i j hij hc
    norm_num at hc
  · intro i hi
    simp at hi
  · intro _
    refine ⟨fun i hi => ?_, fun i => rfl⟩
    simp at hi
  · intro h
    exact absurd h (by decide)
  · decide
  · decide
  · decide
  · decide
  · intro i j hij
    fin_cases i <;> fin_cases j <;>
      simp_all [aW, xW, uW, flagW] <;> norm_num

theorem C2_optimal_reconstruction_wellformed_witness :
    FeasibleApp true (fun _ => true) (fun _ => true)
      (fun _ _ => (0 : ℚ)) 1 aW ∧
    aW.is_start 0 = true ∧
    ((∀ t, aW.is_start t = true ↔ t = 0) ∧
     true = true ∧
     walkCost (fun _ _ => (0 : ℚ)) (walkApp aW.x aW.is_end 0 {0}) =
       ((walkApp aW.x aW.is_end 0 {0}).map
         (fun p => (fun _ _ => (0 : ℚ)) p.1 p.2)).sum ∧
     (true = true →
       (∀ v : Fin 2,
         ((walkApp aW.x aW.is_end 0 {0}).map Prod.fst).count v = 1) ∧
       (walkApp aW.x aW.is_end 0 {0}).head?.map Prod.fst = some 0 ∧
       (walkApp aW.x aW.is_end 0 {0}).getLast?.map Prod.snd = some 0) ∧
     (true = false → ∀ e, aW.is_end e = true →
       true = true ∧
       ((0 : Fin 2) ≠ e →
         (∀ v : Fin 2,
           ((0 : Fin 2) ::
             (walkApp aW.x aW.is_end 0 {0}).map Prod.snd).count v = 1) ∧
         (walkApp aW.x aW.is_end 0 {0}).getLast?.map Prod.snd = some e) ∧
       ((0 : Fin 2) = e → 2 = 1 ∧ walkApp aW.x aW.is_end 0 {0} = []))) :=
  ⟨feasW, rfl, C2_optimal_reconstruction_wellformed true (fun _ => true)
    (fun _ => true) (fun _ _ => (0 : ℚ)) 1 aW feasW 0 rfl⟩

/-! ### Order crossover (C7)
`_crossover_ox` of src/solver_service/models/solver.py lines 209-238:
children start as `[None] * size` with the `[a:b]` slice copied from one
parent, then the remaining slots are filled from the other parent's
rotation `parent[b:] + parent[:b]`, skipping cities already present,
writing at a pointer that starts at `b` and wraps to 0 at `size`. -/

/-- `child = [None] * size; child[a:b] = parent[a:b]`. -/
def oxInit (size : ℕ) (p : List ℕ) (a b : ℕ) : List (Option ℕ) :=
  (List.range size).map (fun i => if a ≤ i ∧ i < b then p.get? i else none)

/-- The fill loop: `for city in rotation: if city not in child: (wrap ptr;
child[ptr] = city; ptr += 1)`. -/
def oxFill (child : List (Option ℕ)) (ptr : ℕ) : List ℕ → List (Option ℕ)
  | [] => child
  | city :: rest =>
    if some city ∈ child then oxFill child ptr rest
    else
      oxFill (child.set (if child.length ≤ ptr then 0 else ptr) (some city))
        ((if child.length ≤ ptr then 0 else ptr) + 1) rest

/-- `_crossover_ox` (solver.py lines 209-238), with the random cut points
`a ≤ b` taken as parameters. -/
def crossoverOx (p1 p2 : List ℕ) (a b : ℕ) :
    List (Option ℕ) × List (Option ℕ) :=
  (oxFill (oxInit p1.length p1 a b) b (p2.drop b ++ p2.take b),
   oxFill (oxInit p1.length p2 a b) b (p1.drop b ++ p1.take b))

/-- The slot the `k`-th placement writes to: `b + k`, wrapped once. -/
def oxPos (n b k : ℕ) : ℕ := if b + k < n then b + k else b + k - n

/-- The pointer value after `k` placements. -/
def oxPtr (n b k : ℕ) : ℕ := if b + k ≤ n then b + k else b + k - n

theorem getD_set_self (c : List (Option ℕ)) (i : ℕ) (h : i < c.length)
    (v : Option ℕ) : (c.set i v).getD i none = v := by
  rw [List.getD_eq_getD_get?, List.get?_eq_getElem?,
    List.getElem?_set_self h]
  rfl

theorem getD_set_ne (c : List (Option ℕ)) (i j : ℕ) (h : i ≠ j)
    (v : Option ℕ) : (c.set i v).getD j none = c.getD j none := by
  rw [List.getD_eq_getD_get?, List.getD_eq_getD_get?,
    List.get?_eq_getElem?, List.get?_eq_getElem?, List.getElem?_set_ne h]

theorem getD_eq_none_of_le (c : List (Option ℕ)) (i : ℕ)
    (h : c.length ≤ i) : c.getD i none = none := by
  rw [List.getD_eq_getD_get?, List.get?_eq_getElem?,
    List.getElem?_eq_none h]
  rfl

theorem mem_of_getD {c : List (Option ℕ)} {i : ℕ} {v : ℕ}
    (h : c.getD i none = some v) : some v ∈ c := by
  rcases Nat.lt_or_ge i c.length with hi | hi
  · rw [List.getD_eq_getD_get?, List.get?_eq_getElem?,
      List.getElem?_eq_getElem hi] at h
    simp only [Option.getD_some] at h
    rw [← h]
    exact List.getElem_mem hi
  · rw [getD_eq_none_of_le c i hi] at h
    cases h

theorem getD_of_mem {c : List (Option ℕ)} {v : ℕ} (h : some v ∈ c) :
    ∃ i, i < c.length ∧ c.getD i none = some v := by
  obtain ⟨i, hi⟩ := List.mem_iff_getElem?.mp h
  have hlen : i < c.length := (List.getElem?_eq_some_iff.mp hi).1
  refine ⟨i, hlen, ?_⟩
  rw [List.getD_eq_getD_get?, List.get?_eq_getElem?, hi]
  rfl

theorem oxInit_length (size : ℕ) (p : List ℕ) (a b : ℕ) :
    (oxInit size p a b).length = size := by
  simp [oxInit]

theorem oxInit_getD (size : ℕ) (p : List ℕ) (a b i : ℕ) (h : i < size) :
    (oxInit size p a b).getD i none =
      if a ≤ i ∧ i < b then p.get? i else none := by
  unfold oxInit
  rw [List.getD_eq_getD_get?, List.get?_eq_getElem?, List.getElem?_map,
    List.getElem?_range h]
  rfl

theorem oxPos_lt (n b k : ℕ) (hb : b < n) (hk : k < n) : oxPos n b k < n := by
  unfold oxPos
  split_ifs <;> omega

theorem oxPos_inj (n b : ℕ) {j k : ℕ} (hj : j < n) (hk : k < n)
    (h : oxPos n b j = oxPos n b k) : j = k := by
  unfold oxPos at h
  split_ifs at h <;> omega

/-- Invariant of the OX fill loop: with `k` placements done, the filled
slots are the copied slice plus the first `k` write positions, values are
distinct indices below `n`, and the count of missing values balances; the
loop then never overwrites a filled slot and ends with every value
placed. -/
theorem oxFill_spec (n a b : ℕ) (hab : a ≤ b) (hbn : b < n) :
    ∀ (r : List ℕ) (k : ℕ) (c : List (Option ℕ)),
      c.length = n →
      (∀ v ∈ r, v < n) →
      (∀ i, i < n → (c.getD i none ≠ none ↔
        (a ≤ i ∧ i < b) ∨ ∃ j, j < k ∧ i = oxPos n b j)) →
      (∀ i j v, c.getD i none = some v → c.getD j none = some v → i = j) →
      (∀ i v, c.getD i none = some v → v < n) →
      (b - a) + k + ((Finset.range n).filter (fun v => some v ∉ c)).card = n →
      (∀ v, v < n → some v ∈ c ∨ v ∈ r) →
      (oxFill c (oxPtr n b k) r).length = n ∧
      (∀ i, c.getD i none ≠ none →
        (oxFill c (oxPtr n b k) r).getD i none = c.getD i none) ∧
      (∀ i j v, (oxFill c (oxPtr n b k) r).getD i none = some v →
        (oxFill c (oxPtr n b k) r).getD j none = some v → i = j) ∧
      (∀ i v, (oxFill c (oxPtr n b k) r).getD i none = some v → v < n) ∧
      (∀ v, v < n → some v ∈ oxFill c (oxPtr n b k) r) := by
  intro r
  induction r with
  | nil =>
    intro k c hlen hvr hreg hinj hval hcount hmem
    refine ⟨hlen, fun i _ => rfl, hinj, hval, fun v hv => ?_⟩
    rcases hmem v hv with h | h
    · exact h
    · exact absurd h (List.not_mem_nil v)
  | cons u r ih =>
    intro k c hlen hvr hreg hinj hval hcount hmem
    by_cases hu : some u ∈ c
    · simp only [oxFill]
      rw [if_pos hu]
      refine ih k c hlen (fun v hv => hvr v (List.mem_cons_of_mem u hv))
        hreg hinj hval hcount (fun v hv => ?_)
      rcases hmem v hv with h | h
      · exact Or.inl h
      · rcases List.mem_cons.mp h with rfl | h2
        · exact Or.inl hu
        · exact Or.inr h2
    · have hun : u < n := hvr u (List.mem_cons_self u r)
      have huM : u ∈ (Finset.range n).filter (fun v => some v ∉ c) := by
        simp only [Finset.mem_filter, Finset.mem_range]
        exact ⟨hun, hu⟩
      have hMpos : 1 ≤ ((Finset.range n).filter (fun v => some v ∉ c)).card :=
        Finset.card_pos.mpr ⟨u, huM⟩
      have hklt : (b - a) + k < n := by omega
      have hkn : k < n := by omega
      have hptr : (if c.length ≤ oxPtr n b k then 0 else oxPtr n b k) =
          oxPos n b k := by
        rw [hlen]
        unfold oxPtr oxPos
        split_ifs <;> omega
      have hptr1 : oxPos n b k + 1 = oxPtr n b (k + 1) := by
        unfold oxPtr oxPos
        split_ifs <;> omega
      have hposlt : oxPos n b k < n := oxPos_lt n b k hbn hkn
      have hfree : c.getD (oxPos n b k) none = none := by
        by_contra hne
        rcases (hreg _ hposlt).mp hne with ⟨h1, h2⟩ | ⟨j, hj, hjeq⟩
        · unfold oxPos at h1 h2
          split_ifs at h1 h2 <;> omega
        · have := oxPos_inj n b hkn (by omega) hjeq
          omega
      simp only [oxFill]
      rw [if_neg hu, hptr, hptr1]
      set c' := c.set (oxPos n b k) (some u) with hc'
      have hlen' : c'.length = n := by rw [hc', List.length_set, hlen]
      have hgetD_self : c'.getD (oxPos n b k) none = some u :=
        getD_set_self c _ (by rw [hlen]; exact hposlt) _
      have hgetD_ne : ∀ i, i ≠ oxPos n b k → c'.getD i none = c.getD i none :=
        fun i hi => getD_set_ne c _ i (fun h => hi h.symm) _
      have hmem_set : ∀ w, some w ∈ c' ↔ some w ∈ c ∨ w = u := by
        intro w
        constructor
        · intro h
          rcases List.mem_or_eq_of_mem_set h with h2 | h2
          · exact Or.inl h2
          · exact Or.inr (Option.some.inj h2)
        · intro h
          rcases h with h | rfl
          · obtain ⟨i, hil, hig⟩ := getD_of_mem h
            have hine : i ≠ oxPos n b k := by
              intro heq
              rw [heq, hfree] at hig
              cases hig
            exact mem_of_getD (c := c') (by rw [hgetD_ne i hine]; exact hig)
          · exact mem_of_getD hgetD_self
      have hreg' : ∀ i, i < n → (c'.getD i none ≠ none ↔
          (a ≤ i ∧ i < b) ∨ ∃ j, j < k + 1 ∧ i = oxPos n b j) := by
        intro i hi
        by_cases hieq : i = oxPos n b k
        · subst hieq
          constructor
          · intro _
            exact Or.inr ⟨k, Nat.lt_succ_self k, rfl⟩
          · intro _
            rw [hgetD_self]
            simp
        · rw [hgetD_ne i hieq, hreg i hi]
          constructor
          · rintro (h | ⟨j, hj, hjeq⟩)
            · exact Or.inl h
            · exact Or.inr ⟨j, by omega, hjeq⟩
          · rintro (h | ⟨j, hj, hjeq⟩)
            · exact Or.inl h
            · refine Or.inr ⟨j, ?_, hjeq⟩
              rcases Nat.lt_or_ge j k with h2 | h2
              · exact h2
              · exfalso
                have hjk : j = k := by omega
                subst hjk
                exact hieq hjeq
      have hinj' : ∀ i j v, c'.getD i none = some v →
          c'.getD j none = some v → i = j := by
        intro i j v hiv hjv
        by_cases hie : i = oxPos n b k <;> by_cases hje : j = oxPos n b k
        · rw [hie, hje]
        · exfalso
          rw [hie, hgetD_self] at hiv
          rw [hgetD_ne j hje] at hjv
          have huv := Option.some.inj hiv
          subst huv
          exact hu (mem_of_getD hjv)
        · exfalso
          rw [hje, hgetD_self] at hjv
          rw [hgetD_ne i hie] at hiv
          have huv := Option.some.inj hjv
          subst huv
          exact hu (mem_of_getD hiv)
        · rw [hgetD_ne i hie] at hiv
          rw [hgetD_ne j hje] at hjv
          exact hinj i j v hiv hjv
      have hval' : ∀ i v, c'.getD i none = some v → v < n := by
        intro i v hv
        by_cases hie : i = oxPos n b k
        · rw [hie, hgetD_self] at hv
          have := Option.some.inj hv
          omega
        · rw [hgetD_ne i hie] at hv
          exact hval i v hv
      have hcount' : (b - a) + (k + 1) +
          ((Finset.range n).filter (fun v => some v ∉ c')).card = n := by
        have hM : (Finset.range n).filter (fun v => some v ∉ c') =
            ((Finset.range n).filter (fun v => some v ∉ c)).erase u := by
          ext w
          simp only [Finset.mem_filter, Finset.mem_range, Finset.mem_erase]
          constructor
          · rintro ⟨hw, hwc⟩
            refine ⟨fun hwu => hwc ?_, hw,
              fun hin => hwc ((hmem_set w).mpr (Or.inl hin))⟩
            rw [hwu]
            exact (hmem_set u).mpr (Or.inr rfl)
          · rintro ⟨hwu, hw, hwc⟩
            refine ⟨hw, fun hin => ?_⟩
            rcases (hmem_set w).mp hin with h | h
            · exact hwc h
            · exact hwu h
        rw [hM, Finset.card_erase_of_mem huM]
        omega
      have hmem' : ∀ v, v < n → some v ∈ c' ∨ v ∈ r := by
        intro v hv
        rcases hmem v hv with h | h
        · exact Or.inl ((hmem_set v).mpr (Or.inl h))
        · rcases List.mem_cons.mp h with rfl | h2
          · exact Or.inl ((hmem_set v).mpr (Or.inr rfl))
          · exact Or.inr h2
      have hmain := ih (k + 1) c' hlen'
        (fun v hv => hvr v (List.mem_cons_of_mem u hv))
        hreg' hinj' hval' hcount' hmem'
      refine ⟨hmain.1, ?_, hmain.2.2.1, hmain.2.2.2.1, hmain.2.2.2.2⟩
      intro i hi
      have hine : i ≠ oxPos n b k := by
        intro heq
        rw [heq, hfree] at hi
        exact hi rfl
      rw [hmain.2.1 i (by rw [hgetD_ne i hine]; exact hi), hgetD_ne i hine]

/-- One OX child: starting from the copied `[a:b]` slice of `p` and
filling from the rotation of `q`, the result keeps the slice in place and
is a permutation of `0..n-1` wrapped in `some`. -/
theorem oxChild_spec (n : ℕ) (p q : List ℕ) (hp : p.Perm (List.range n))
    (hq : q.Perm (List.range n)) (a b : ℕ) (hab : a ≤ b) (hbn : b < n) :
    (oxFill (oxInit n p a b) b (q.drop b ++ q.take b)).length = n ∧
    (∀ i, a ≤ i → i < b →
      (oxFill (oxInit n p a b) b (q.drop b ++ q.take b)).getD i none =
        p.get? i) ∧
    (∃ l : List ℕ,
      oxFill (oxInit n p a b) b (q.drop b ++ q.take b) = l.map some ∧
      l.Perm (List.range n)) := by
  have hplen : p.length = n := by rw [hp.length_eq, List.length_range]
  have hpnd : p.Nodup := hp.nodup_iff.mpr (List.nodup_range n)
  have hpmem : ∀ v, v ∈ p ↔ v < n := fun v => by
    rw [hp.mem_iff, List.mem_range]
  have hqmem : ∀ v, v ∈ q ↔ v < n := fun v => by
    rw [hq.mem_iff, List.mem_range]
  set c₀ := oxInit n p a b with hc₀
  set r := q.drop b ++ q.take b with hr
  have hrmem : ∀ v, v ∈ q → v ∈ r := by
    intro v h
    conv at h => rw [← List.take_append_drop b q]
    rw [hr]
    rcases List.mem_append.mp h with h | h
    · exact List.mem_append.mpr (Or.inr h)
    · exact List.mem_append.mpr (Or.inl h)
  have hlen0 : c₀.length = n := oxInit_length n p a b
  have hget : ∀ i, i < n →
      c₀.getD i none = if a ≤ i ∧ i < b then p.get? i else none :=
    fun i h => oxInit_getD n p a b i h
  have hgetD_all : ∀ i v, c₀.getD i none = some v →
      (a ≤ i ∧ i < b) ∧ p.get? i = some v := by
    intro i v h
    rcases Nat.lt_or_ge i n with hi | hi
    · rw [hget i hi] at h
      split_ifs at h with hcond
      exact ⟨hcond, h⟩
    · rw [getD_eq_none_of_le c₀ i (by rw [hlen0]; exact hi)] at h
      cases h
  have hreg0 : ∀ i, i < n → (c₀.getD i none ≠ none ↔
      (a ≤ i ∧ i < b) ∨ ∃ j, j < 0 ∧ i = oxPos n b j) := by
    intro i hi
    rw [hget i hi]
    constructor
    · intro h
      split_ifs at h with hcond
      · exact Or.inl hcond
      · exact absurd rfl h
    · rintro (⟨h1, h2⟩ | ⟨j, hj, _⟩)
      · rw [if_pos ⟨h1, h2⟩]
        intro hnone
        have hip : i < p.length := by omega
        rw [List.get?_eq_getElem?, List.getElem?_eq_getElem hip] at hnone
        cases hnone
      · omega
  have hinj0 : ∀ i j v, c₀.getD i none = some v →
      c₀.getD j none = some v → i = j := by
    intro i j v hiv hjv
    obtain ⟨⟨hia, hib⟩, hpi⟩ := hgetD_all i v hiv
    obtain ⟨⟨hja, hjb⟩, hpj⟩ := hgetD_all j v hjv
    refine @List.getElem?_inj ℕ i j p (by omega) hpnd ?_
    rw [← List.get?_eq_getElem?, ← List.get?_eq_getElem?, hpi, hpj]
  have hval0 : ∀ i v, c₀.getD i none = some v → v < n := by
    intro i v hv
    obtain ⟨-, hpi⟩ := hgetD_all i v hv
    exact (hpmem v).mp (List.get?_mem hpi)
  have hmemc₀ : ∀ w, some w ∈ c₀ ↔
      ∃ i, (a ≤ i ∧ i < b) ∧ p.get? i = some w := by
    intro w
    constructor
    · intro h
      obtain ⟨i, hil, hig⟩ := getD_of_mem h
      exact ⟨i, hgetD_all i w hig⟩
    · rintro ⟨i, ⟨h1, h2⟩, hpi⟩
      refine mem_of_getD (c := c₀) (i := i) ?_
      rw [hget i (by omega), if_pos ⟨h1, h2⟩]
      exact hpi
  have hS : ∀ w, w ∈ (Finset.Ico a b).image (fun i => p.getD i 0) ↔
      some w ∈ c₀ := by
    intro w
    rw [Finset.mem_image, hmemc₀]
    constructor
    · rintro ⟨i, hi, hw⟩
      rw [Finset.mem_Ico] at hi
      refine ⟨i, ⟨hi.1, hi.2⟩, ?_⟩
      have hip : i < p.length := by omega
      rw [List.getD_eq_getD_get?, List.get?_eq_getElem?,
        List.getElem?_eq_getElem hip] at hw
      simp only [Option.getD_some] at hw
      rw [List.get?_eq_getElem?, List.getElem?_eq_getElem hip, hw]
    · rintro ⟨i, ⟨h1, h2⟩, hpi⟩
      refine ⟨i, Finset.mem_Ico.mpr ⟨h1, h2⟩, ?_⟩
      have hip : i < p.length := by omega
      rw [List.get?_eq_getElem?, List.getElem?_eq_getElem hip] at hpi
      rw [List.getD_eq_getD_get?, List.get?_eq_getElem?,
        List.getElem?_eq_getElem hip]
      simpa using Option.some.inj hpi
  have hsub : (Finset.Ico a b).image (fun i => p.getD i 0) ⊆
      Finset.range n := by
    intro w hw
    rw [Finset.mem_range]
    rw [hS w] at hw
    obtain ⟨i, -, hpi⟩ := (hmemc₀ w).mp hw
    exact (hpmem w).mp (List.get?_mem hpi)
  have hcard_S : ((Finset.Ico a b).image (fun i => p.getD i 0)).card =
      b - a := by
    rw [Finset.card_image_of_injOn, Nat.card_Ico]
    intro i hi j hj hij
    rw [Finset.coe_Ico, Set.mem_Ico] at hi hj
    have hip : i < p.length := by omega
    have hjp : j < p.length := by omega
    dsimp only at hij
    rw [List.getD_eq_getD_get?, List.getD_eq_getD_get?,
      List.get?_eq_getElem?, List.get?_eq_getElem?,
      List.getElem?_eq_getElem hip, List.getElem?_eq_getElem hjp] at hij
    simp only [Option.getD_some] at hij
    refine List.getElem?_inj hip hpnd ?_
    rw [List.getElem?_eq_getElem hip, List.getElem?_eq_getElem hjp, hij]
  have hcount0 : (b - a) + 0 +
      ((Finset.range n).filter (fun v => some v ∉ c₀)).card = n := by
    have hMeq : (Finset.range n).filter (fun v => some v ∉ c₀) =
        Finset.range n \ (Finset.Ico a b).image (fun i => p.getD i 0) := by
      ext w
      simp only [Finset.mem_filter, Finset.mem_sdiff, Finset.mem_range]
      rw [hS w]
    rw [hMeq, Finset.card_sdiff hsub, Finset.card_range, hcard_S]
    have hba : b - a ≤ n := by omega
    omega
  have hmem0 : ∀ v, v < n → some v ∈ c₀ ∨ v ∈ r :=
    fun v hv => Or.inr (hrmem v ((hqmem v).mpr hv))
  have hvr : ∀ v ∈ r, v < n := by
    intro v hv
    rw [hr] at hv
    rcases List.mem_append.mp hv with h | h
    · exact (hqmem v).mp (List.mem_of_mem_drop h)
    · exact (hqmem v).mp (List.mem_of_mem_take h)
  have hb0 : oxPtr n b 0 = b := by
    unfold oxPtr
    split_ifs <;> omega
  have hmain := oxFill_spec n a b hab hbn r 0 c₀ hlen0 hvr hreg0 hinj0
    hval0 hcount0 hmem0
  rw [hb0] at hmain
  set res := oxFill c₀ b r with hres
  obtain ⟨hlenr, hkeep, hinjr, hvalr, hmemr⟩ := hmain
  have hbound : ∀ (i v : ℕ), res.getD i none = some v → i < n := by
    intro i v h
    by_contra hge
    rw [getD_eq_none_of_le res i (by rw [hlenr]; omega)] at h
    cases h
  have hfilled : ∀ i, i < n → res.getD i none ≠ none := by
    have hex : ∀ v : Fin n, ∃ i, res.getD i none = some v.val := by
      intro v
      obtain ⟨i, -, hig⟩ := getD_of_mem (hmemr v.val v.isLt)
      exact ⟨i, hig⟩
    let g : Fin n → Fin n := fun v =>
      ⟨Nat.find (hex v), hbound _ _ (Nat.find_spec (hex v))⟩
    have ginj : Function.Injective g := by
      intro v1 v2 hg
      have h1 := Nat.find_spec (hex v1)
      have h2 := Nat.find_spec (hex v2)
      have heq : Nat.find (hex v1) = Nat.find (hex v2) := congrArg Fin.val hg
      rw [heq, h2] at h1
      exact Fin.ext (Option.some.inj h1).symm
    have gsurj := Finite.surjective_of_injective ginj
    intro i hi
    obtain ⟨v, hv⟩ := gsurj ⟨i, hi⟩
    have hspec := Nat.find_spec (hex v)
    rw [show Nat.find (hex v) = i from congrArg Fin.val hv] at hspec
    rw [hspec]
    simp
  refine ⟨hlenr, ?_, ?_⟩
  · intro i h1 h2
    rw [hkeep i ((hreg0 i (by omega)).mpr (Or.inl ⟨h1, h2⟩)),
      hget i (by omega), if_pos ⟨h1, h2⟩]
  · refine ⟨res.map (fun o => o.getD 0), ?_, ?_⟩
    · rw [List.map_map]
      have hid : ∀ x ∈ res, ((some ∘ fun o => Option.getD o 0) x) = x := by
        intro x hx
        obtain ⟨i, hi⟩ := List.mem_iff_getElem?.mp hx
        have hilt : i < res.length := (List.getElem?_eq_some_iff.mp hi).1
        have hgd : res.getD i none = x := by
          rw [List.getD_eq_getD_get?, List.get?_eq_getElem?, hi]
          rfl
        cases x with
        | none =>
          exact absurd hgd (hfilled i (by rw [← hlenr]; exact hilt))
        | some w => rfl
      rw [List.map_congr_left hid, List.map_id']
    · have hsubl : List.range n ⊆ res.map (fun o => o.getD 0) := by
        intro v hv
        rw [List.mem_range] at hv
        have := hmemr v hv
        rw [List.mem_map]
        exact ⟨some v, this, rfl⟩
      have hlen_map : (res.map (fun o => Option.getD o 0)).length = n := by
        rw [List.length_map, hlenr]
      exact ((List.subperm_of_subset (List.nodup_range n) hsubl).perm_of_length_le
        (by rw [hlen_map, List.length_range])).symm

/-- Claim C7: for parent individuals that are permutations of the index
set `0..n-1` (n ≥ 1, cut points a ≤ b < n), both children returned by the
order crossover `crossoverOx` (`_crossover_ox`, solver.py lines 209-238)
are again permutations of `0..n-1` — no index duplicated or lost — with
child 1 preserving the contiguous slice `parent1[a:b]` in place and
child 2 preserving `parent2[a:b]`. -/
theorem C7_crossover_ox_permutations (n : ℕ) (p1 p2 : List ℕ)
    (h1 : p1.Perm (List.range n)) (h2 : p2.Perm (List.range n))
    (a b : ℕ) (hab : a ≤ b) (hbn : b < n) :
    (∃ l : List ℕ, (crossoverOx p1 p2 a b).1 = l.map some ∧
      l.Perm (List.range n)) ∧
    (∃ l : List ℕ, (crossoverOx p1 p2 a b).2 = l.map some ∧
      l.Perm (List.range n)) ∧
    (∀ i, a ≤ i → i < b →
      (crossoverOx p1 p2 a b).1.getD i none = p1.get? i) ∧
    (∀ i, a ≤ i → i < b →
      (crossoverOx p1 p2 a b).2.getD i none = p2.get? i) := by
  have hlen1 : p1.length = n := by rw [h1.length_eq, List.length_range]
  have hc1 := oxChild_spec n p1 p2 h1 h2 a b hab hbn
  have hc2 := oxChild_spec n p2 p1 h2 h1 a b hab hbn
  simp only [crossoverOx, hlen1]
  exact ⟨hc1.2.2, hc2.2.2, hc1.2.1, hc2.2.1⟩

theorem C7_crossover_ox_permutations_witness :
    ([0, 1] : List ℕ).Perm (List.range 2) ∧
    ([1, 0] : List ℕ).Perm (List.range 2) ∧
    (0 : ℕ) ≤ 1 ∧ 1 < 2 ∧
    ((∃ l : List ℕ, (crossoverOx [0, 1] [1, 0] 0 1).1 = l.map some ∧
      l.Perm (List.range 2)) ∧
    (∃ l : List ℕ, (crossoverOx [0, 1] [1, 0] 0 1).2 = l.map some ∧
      l.Perm (List.range 2)) ∧
    (∀ i, 0 ≤ i → i < 1 →
      (crossoverOx [0, 1] [1, 0] 0 1).1.getD i none =
        ([0, 1] : List ℕ).get? i) ∧
    (∀ i, 0 ≤ i → i < 1 →
      (crossoverOx [0, 1] [1, 0] 0 1).2.getD i none =
        ([1, 0] : List ℕ).get? i)) :=
  ⟨by decide, by decide, by decide, by decide,
    C7_crossover_ox_permutations 2 [0, 1] [1, 0] (by decide) (by decide)
      0 1 (by decide) (by decide)⟩

end Spec2Proof
